import Mathlib

/-!
Shallow embedding of the fss2020 Go package: a two-party Function Secret
Sharing library realizing a Distributed Comparison Function (DCF) and its
dual (DDCF), following Boyle et al., ePrint 2020/1392.

Modelling conventions:
* Go byte slices are lists of naturals (`Bytes`); `big.Int` is `Int`;
  `big.Int.Mod` (Euclidean, canonical nonnegative result for a positive
  modulus) is `Int.emod`, written `%`; the Go `%` operator on machine
  integers (truncated division, sign of the dividend) is `Int.tmod`.
* The AES-CTR keystream used by `expandDCFNode` is an uninterpreted
  deterministic function `ks : Bytes → Nat → Nat` giving the byte at each
  offset of the stream keyed by a seed.  The output buffer of
  `expandDCFNode` always has exactly (2*lambdaBytes+1)*2 bytes, as in the
  source, so only its contents are abstract.
* Randomness (`crypto/rand`) is modelled by passing the drawn values as
  parameters (`initialSeed0`, `initialSeed1`, the DDCF share `s0Share`).
* Go functions returning `(..., error)` become `Except GoError ...`; a
  `.error` result carries no other outputs, matching the source, which
  returns nil results together with a non-nil error, never an incomplete
  key.
* A Go runtime panic (negative shift count, division by zero) is
  modelled by `Option`: `none` is a panic, `some r` a regular return.
* Go `int` is 64 bits wide (the package is benchmarked on amd64): the
  shift `1 << (n-1)` computing the domain threshold is modelled by
  `wrap64 (2 ^ (n-1))`, which agrees with the mathematical power for
  1 ≤ n ≤ 63 and reproduces the wrap-around above that.
-/

namespace Fss2020

/-- Go byte slices, as lists of naturals. -/
abbrev Bytes := List Nat

/-- Byte-wise XOR of two equally long byte slices. -/
def xorBytes (a b : Bytes) : Bytes := List.zipWith (fun x y => x ^^^ y) a b

/-- `big.Int.SetBytes`: interpret a byte slice as a big-endian natural. -/
def bytesToNat (l : Bytes) : Nat := l.foldl (fun acc b => acc * 256 + b) 0

/-- Two's-complement wrap-around of 64-bit Go `int` arithmetic. -/
def wrap64 (z : Int) : Int := (z + 2 ^ 63) % 2 ^ 64 - 2 ^ 63

/-- `big.Int.Int64`: the low 64 bits as a two's-complement value (the
documented behaviour when the value fits in 64 bits). -/
def goInt64 (z : Int) : Int := wrap64 z

/-- The error kinds surfaced by the package (the Go source returns
`fmt.Errorf` values; the spec classifies them into these kinds). -/
inductive GoError where
  | AlphaOutOfRange
  | XOutOfRange
  | UnsupportedGroup
  | InvalidLength
  | InternalError
  | CryptoFailure
  deriving DecidableEq, Repr

/-- Decidable equality of `Except` results, used to evaluate the embedded
functions on concrete inputs. -/
instance exceptDecEq {ε α : Type} [DecidableEq ε] [DecidableEq α] :
    DecidableEq (Except ε α)
  | .error a, .error b =>
    if h : a = b then .isTrue (by rw [h]) else .isFalse (by simp [h])
  | .error _, .ok _ => .isFalse (by simp)
  | .ok _, .error _ => .isFalse (by simp)
  | .ok a, .ok b =>
    if h : a = b then .isTrue (by rw [h]) else .isFalse (by simp [h])

/-- `DCFScheme` (fss2020.go): security parameter in bits and group order. -/
structure DCFScheme where
  lambdaInBits : Nat
  groupOrder : Int
  deriving Repr

/-- `NewDCFScheme` stores its two parameters without any validation. -/
def NewDCFScheme (lambdaInBits : Nat) (groupOrder : Int) : DCFScheme :=
  ⟨lambdaInBits, groupOrder⟩

/-- `isPowerOfTwo` (fss2020.go): positive sign and `n AND (n-1) == 0`. -/
def isPowerOfTwo (n : Int) : Bool :=
  if n ≤ 0 then false else n.natAbs &&& (n.natAbs - 1) == 0

/-- Number of bytes in a seed or value block, `lambdaInBits / 8`. -/
def DCFScheme.lambdaInBytes (d : DCFScheme) : Nat := d.lambdaInBits / 8

/-- Bit length of a natural number, by fuelled halving; the fuel `n`
itself always suffices. -/
def bitLenAux : Nat → Nat → Nat
  | 0, _ => 0
  | _ + 1, 0 => 0
  | fuel + 1, n + 1 => bitLenAux fuel ((n + 1) / 2) + 1

/-- `big.Int.BitLen`: the length in bits of the absolute value. -/
def bitLen (n : Nat) : Nat := bitLenAux n n

/-- `k = groupOrder.BitLen() - 1` as computed by `mapToGroupElement`. -/
def DCFScheme.groupK (d : DCFScheme) : Nat := bitLen d.groupOrder.natAbs - 1

/-- The value computed by `mapToGroupElement` once all checks pass: the
first ⌈k/8⌉ bytes of the block read as a big-endian natural, shifted
right so that only the top k bits remain. -/
def mapToGroupElementCore (d : DCFScheme) (input : Bytes) : Int :=
  let k := d.groupK
  let requiredBytes := (k + 7) / 8
  (bytesToNat (input.take requiredBytes) >>> (requiredBytes * 8 - k) : Nat)

/-- `mapToGroupElement` (Convert, fss2020.go lines 394-419), with the
checks of the source in source order. -/
def mapToGroupElement (d : DCFScheme) (input : Bytes) : Except GoError Int :=
  if input.length ≠ d.lambdaInBytes then .error .InvalidLength
  else if ¬ isPowerOfTwo d.groupOrder then .error .UnsupportedGroup
  else if d.groupK > d.lambdaInBits then .error .UnsupportedGroup
  else if (d.groupK + 7) / 8 > input.length then .error .InternalError
  else .ok (mapToGroupElementCore d input)

/-- `ExpandedDCFNode`: two seeds, two value blocks, two control bits.
The first component of each pair is the left child, the second the
right child. -/
structure ExpandedDCFNode where
  Seeds : Bytes × Bytes
  Values : Bytes × Bytes
  TBits : Nat × Nat
  deriving DecidableEq, Repr

/-- Select the left (`false`) or right (`true`) component of a pair,
mirroring the source's indexing by the constants left = 0, right = 1. -/
def pick {α : Type} (p : α × α) (dir : Bool) : α := if dir then p.2 else p.1

/-- The CTR keystream buffer of `expandDCFNode`: exactly `(2L+1)*2` bytes
whose contents come from the abstract keystream `ks` keyed by the seed. -/
def prgOutput (d : DCFScheme) (ks : Bytes → Nat → Nat) (seed : Bytes) : Bytes :=
  (List.range ((d.lambdaInBytes * 2 + 1) * 2)).map (ks seed)

/-- A contiguous slice `l[a:b]` of a byte slice. -/
def slice (l : Bytes) (a b : Nat) : Bytes := (l.drop a).take (b - a)

/-- The node layout of `expandDCFNode` (fss2020.go lines 372-388):
`|--sL--|--vL--|--tL--|--sR--|--vR--|--tR--|`, the control bits being the
least significant bit of their byte. -/
def expandDCFNodeCore (d : DCFScheme) (ks : Bytes → Nat → Nat) (seed : Bytes) :
    ExpandedDCFNode :=
  let L := d.lambdaInBytes
  let output := prgOutput d ks seed
  { Seeds := (slice output 0 L, slice output (2 * L + 1) (3 * L + 1))
    Values := (slice output L (2 * L), slice output (3 * L + 1) (4 * L + 1))
    TBits := (output.getD (2 * L) 0 &&& 1, output.getD (4 * L + 1) 0 &&& 1) }

/-- `expandDCFNode` (fss2020.go lines 354-391), with the seed-length
check of the source and the `aes.NewCipher` call, which fails with a
cipher-creation error (`CryptoFailure`) for any key size other than
16, 24 or 32 bytes. -/
def expandDCFNode (d : DCFScheme) (ks : Bytes → Nat → Nat) (seed : Bytes) :
    Except GoError ExpandedDCFNode :=
  if seed.length ≠ d.lambdaInBytes then .error .InvalidLength
  else if ¬ (seed.length = 16 ∨ seed.length = 24 ∨ seed.length = 32) then
    .error .CryptoFailure
  else .ok (expandDCFNodeCore d ks seed)

/-- `DCFCorrectionWord`: per-level seed, group value (kept signed), and
the two control-bit corrections (left, right). -/
structure DCFCorrectionWord where
  Seed : Bytes
  Value : Int
  TBits : Nat × Nat
  deriving DecidableEq, Repr

/-- `DCFKey`. -/
structure DCFKey where
  Party : Int
  Seed : Bytes
  CWs : List DCFCorrectionWord
  FinalValue : Int
  deriving DecidableEq, Repr

/-- `DDCFKey`: a DCF key together with an additive share of β₁. -/
structure DDCFKey where
  toDCFKey : DCFKey
  S : Int
  deriving DecidableEq, Repr

/-- State carried across the levels of `GenerateKeys`: the current seeds
and control bits of both parties and the signed accumulator
`valueAlpha`. -/
structure GenState where
  s0 : Bytes
  s1 : Bytes
  t0 : Nat
  t1 : Nat
  vAlpha : Int
  deriving Repr

/-- One level of the `GenerateKeys` loop (fss2020.go lines 64-176),
producing the next state and this level's correction word.  `keep` is
the right child exactly when the current α bit is 1; `lose` is the other
child. -/
def genStep (d : DCFScheme) (ks : Bytes → Nat → Nat) (beta : Int)
    (st : GenState) (alphaBit : Nat) :
    Except GoError (GenState × DCFCorrectionWord) := do
  let node0 ← expandDCFNode d ks st.s0
  let node1 ← expandDCFNode d ks st.s1
  let keep : Bool := alphaBit ≠ 0
  let lose : Bool := ¬ keep
  let seedCW := xorBytes (pick node0.Seeds lose) (pick node1.Seeds lose)
  let v0Lose ← mapToGroupElement d (pick node0.Values lose)
  let v1Lose ← mapToGroupElement d (pick node1.Values lose)
  let vCW0 := v1Lose - v0Lose - st.vAlpha
  let vCW1 := if st.t1 = 1 then -vCW0 else vCW0
  let valueCW := if lose = false then vCW1 + (if st.t1 = 1 then -beta else beta) else vCW1
  let v0Keep ← mapToGroupElement d (pick node0.Values keep)
  let v1Keep ← mapToGroupElement d (pick node1.Values keep)
  let vAlpha' := st.vAlpha - v1Keep + v0Keep + (if st.t1 = 1 then -valueCW else valueCW)
  let tCWLeft := pick node0.TBits false ^^^ pick node1.TBits false ^^^ alphaBit ^^^ 1
  let tCWRight := pick node0.TBits true ^^^ pick node1.TBits true ^^^ alphaBit
  let tCWKeep := if keep then tCWRight else tCWLeft
  let s0' := if st.t0 = 1 then xorBytes (pick node0.Seeds keep) seedCW else pick node0.Seeds keep
  let s1' := if st.t1 = 1 then xorBytes (pick node1.Seeds keep) seedCW else pick node1.Seeds keep
  let t0' := if st.t0 = 1 then pick node0.TBits keep ^^^ tCWKeep else pick node0.TBits keep
  let t1' := if st.t1 = 1 then pick node1.TBits keep ^^^ tCWKeep else pick node1.TBits keep
  .ok (⟨s0', s1', t0', t1', vAlpha'⟩, ⟨seedCW, valueCW, (tCWLeft, tCWRight)⟩)

/-- The full level loop of `GenerateKeys`, over the MSB-first bit
decomposition of the shifted α, returning the final state and the
correction words in level order. -/
def genLevels (d : DCFScheme) (ks : Bytes → Nat → Nat) (beta : Int) :
    List Nat → GenState → Except GoError (GenState × List DCFCorrectionWord)
  | [], st => .ok (st, [])
  | b :: bs, st =>
    genStep d ks beta st b >>= fun p =>
      genLevels d ks beta bs p.1 >>= fun q => .ok (q.1, p.2 :: q.2)

/-- The MSB-first bit decomposition used by the generator and the
evaluator: bit i is `(v >> (n-1-i)) AND 1`. -/
def msbBits (n : Nat) (v : Nat) : List Nat :=
  (List.range n).map (fun i => v >>> (n - 1 - i) &&& 1)

/-- `GenerateKeys` (fss2020.go lines 33-225).  `ks` abstracts the AES-CTR
keystream and `initialSeed0`, `initialSeed1` are the two uniformly drawn
initial seeds.  `none` models the runtime panic of the shift
`1 << (n-1)` with a negative shift count when n ≤ 0; otherwise the
result is the source's pair of keys, or its error with no keys. -/
def GenerateKeys (d : DCFScheme) (ks : Bytes → Nat → Nat)
    (initialSeed0 initialSeed1 : Bytes) (n alpha beta : Int) :
    Option (Except GoError (DCFKey × DCFKey)) :=
  if n - 1 < 0 then none
  else
    let threshold : Int := wrap64 (2 ^ (n - 1).toNat)
    if alpha ≥ threshold ∨ alpha < -threshold then some (.error .AlphaOutOfRange)
    else
      let alphaMapped := (alpha + threshold).toNat
      some
        (genLevels d ks beta (msbBits n.toNat alphaMapped)
            ⟨initialSeed0, initialSeed1, 0, 1, 0⟩ >>= fun r =>
          mapToGroupElement d r.1.s0 >>= fun s0n =>
            mapToGroupElement d r.1.s1 >>= fun s1n =>
              let fv0 := s1n - s0n - r.1.vAlpha
              let finalValue := if r.1.t1 = 1 then -fv0 else fv0
              .ok (⟨0, initialSeed0, r.2, finalValue⟩, ⟨1, initialSeed1, r.2, finalValue⟩))

/-- State carried across the levels of `Evaluate`: current seed, current
control bit, and the running accumulator V. -/
structure EvalState where
  s : Bytes
  t : Nat
  v : Int
  deriving DecidableEq, Repr

/-- One level of the `Evaluate` loop (fss2020.go lines 244-314).
`negate` is `key.Party % 2 == 1`.  The source reduces the accumulator
modulo the group order after a right-branch contribution but not after a
left-branch one. -/
def evalStep (d : DCFScheme) (ks : Bytes → Nat → Nat) (negate : Bool)
    (st : EvalState) (xBit : Nat) (cw : DCFCorrectionWord) :
    Except GoError EvalState := do
  let node ← expandDCFNode d ks st.s
  let sL := if st.t = 1 then xorBytes (pick node.Seeds false) cw.Seed else pick node.Seeds false
  let sR := if st.t = 1 then xorBytes (pick node.Seeds true) cw.Seed else pick node.Seeds true
  let tL := if st.t = 1 then pick node.TBits false ^^^ cw.TBits.1 else pick node.TBits false
  let tR := if st.t = 1 then pick node.TBits true ^^^ cw.TBits.2 else pick node.TBits true
  let vConverted ← mapToGroupElement d (if xBit = 0 then node.Values.1 else node.Values.2)
  let vc := if st.t = 1 then vConverted + cw.Value else vConverted
  let u := if negate then -vc else vc
  if xBit = 0 then .ok ⟨sL, tL, st.v + u⟩
  else .ok ⟨sR, tR, (st.v + u) % d.groupOrder⟩

/-- The full level loop of `Evaluate` over the bits of the shifted x
paired with the key's correction words. -/
def evalLevels (d : DCFScheme) (ks : Bytes → Nat → Nat) (negate : Bool) :
    List (Nat × DCFCorrectionWord) → EvalState → Except GoError EvalState
  | [], st => .ok st
  | (b, cw) :: rest, st => do
    let st' ← evalStep d ks negate st b cw
    evalLevels d ks negate rest st'

/-- `Evaluate` (fss2020.go lines 227-334).  `none` models the panic of
`1 << (n-1)` when the key's correction-word list is empty. -/
def Evaluate (d : DCFScheme) (ks : Bytes → Nat → Nat) (key : DCFKey) (x : Int) :
    Option (Except GoError Int) :=
  let n := key.CWs.length
  if n = 0 then none
  else
    let threshold : Int := wrap64 (2 ^ (n - 1))
    if x ≥ threshold ∨ x < -threshold then some (.error .XOutOfRange)
    else
      let xMapped := (x + threshold).toNat
      some (do
        let stF ← evalLevels d ks (Int.tmod key.Party 2 == 1)
          ((msbBits n xMapped).zip key.CWs) ⟨key.Seed, (key.Party % 256).toNat, 0⟩
        let snConverted ← mapToGroupElement d stF.s
        let w0 := if stF.t = 1 then snConverted + key.FinalValue else snConverted
        let w := if Int.tmod key.Party 2 == 1 then -w0 else w0
        .ok ((stF.v + w) % d.groupOrder))

/-- `Reconstruct` (fss2020.go lines 336-344): sum of the shares, reduced
modulo the group order after every addition. -/
def Reconstruct (d : DCFScheme) (ys : List Int) : Int :=
  ys.foldl (fun result y => (result + y) % d.groupOrder) 0

/-- Modelled from the spec: a variant of `evalStep` that reduces the
accumulator modulo the group order after every level's contribution,
left branch included. -/
def evalStepEvery (d : DCFScheme) (ks : Bytes → Nat → Nat) (negate : Bool)
    (st : EvalState) (xBit : Nat) (cw : DCFCorrectionWord) :
    Except GoError EvalState := do
  let node ← expandDCFNode d ks st.s
  let sL := if st.t = 1 then xorBytes (pick node.Seeds false) cw.Seed else pick node.Seeds false
  let sR := if st.t = 1 then xorBytes (pick node.Seeds true) cw.Seed else pick node.Seeds true
  let tL := if st.t = 1 then pick node.TBits false ^^^ cw.TBits.1 else pick node.TBits false
  let tR := if st.t = 1 then pick node.TBits true ^^^ cw.TBits.2 else pick node.TBits true
  let vConverted ← mapToGroupElement d (if xBit = 0 then node.Values.1 else node.Values.2)
  let vc := if st.t = 1 then vConverted + cw.Value else vConverted
  let u := if negate then -vc else vc
  if xBit = 0 then .ok ⟨sL, tL, (st.v + u) % d.groupOrder⟩
  else .ok ⟨sR, tR, (st.v + u) % d.groupOrder⟩

/-- Level loop of the reduce-at-every-step variant. -/
def evalLevelsEvery (d : DCFScheme) (ks : Bytes → Nat → Nat) (negate : Bool) :
    List (Nat × DCFCorrectionWord) → EvalState → Except GoError EvalState
  | [], st => .ok st
  | (b, cw) :: rest, st => do
    let st' ← evalStepEvery d ks negate st b cw
    evalLevelsEvery d ks negate rest st'

/-- Modelled from the spec: `Evaluate` with the accumulator reduced
modulo the group order after every level's contribution. -/
def EvaluateEveryStep (d : DCFScheme) (ks : Bytes → Nat → Nat) (key : DCFKey) (x : Int) :
    Option (Except GoError Int) :=
  let n := key.CWs.length
  if n = 0 then none
  else
    let threshold : Int := wrap64 (2 ^ (n - 1))
    if x ≥ threshold ∨ x < -threshold then some (.error .XOutOfRange)
    else
      let xMapped := (x + threshold).toNat
      some (do
        let stF ← evalLevelsEvery d ks (Int.tmod key.Party 2 == 1)
          ((msbBits n xMapped).zip key.CWs) ⟨key.Seed, (key.Party % 256).toNat, 0⟩
        let snConverted ← mapToGroupElement d stF.s
        let w0 := if stF.t = 1 then snConverted + key.FinalValue else snConverted
        let w := if Int.tmod key.Party 2 == 1 then -w0 else w0
        .ok ((stF.v + w) % d.groupOrder))

/-- The δ computed by `GenerateDDCFKeys` (ddcf.go line 15): Go's
truncated-division remainder of the (64-bit) difference of the betas by
`int(groupOrder.Int64())`. -/
def betaDiffGo (d : DCFScheme) (beta0 beta1 : Int) : Int :=
  Int.tmod (wrap64 (beta0 - beta1)) (goInt64 d.groupOrder)

/-- `GenerateDDCFKeys` (ddcf.go lines 14-40).  `s0Share` is the value
drawn uniformly from [0, groupOrder) by `rand.Int`.  `none` models the
division-by-zero panic of the Go `%` when the group order wraps to 0, and
the panic propagated from `GenerateKeys`. -/
def GenerateDDCFKeys (d : DCFScheme) (ks : Bytes → Nat → Nat)
    (initialSeed0 initialSeed1 : Bytes) (s0Share : Int)
    (n alpha beta0 beta1 : Int) : Option (Except GoError (DDCFKey × DDCFKey)) :=
  if goInt64 d.groupOrder = 0 then none
  else
    let betaDiff := betaDiffGo d beta0 beta1
    match GenerateKeys d ks initialSeed0 initialSeed1 n alpha betaDiff with
    | none => none
    | some (.error e) => some (.error e)
    | some (.ok (key0, key1)) =>
      let s1Share := (beta1 - s0Share) % d.groupOrder
      some (.ok (⟨key0, s0Share⟩, ⟨key1, s1Share⟩))

/-- `EvaluateDDCF` (ddcf.go lines 42-52): the inner DCF evaluation plus
the key's additive share, reduced modulo the group order. -/
def EvaluateDDCF (d : DCFScheme) (ks : Bytes → Nat → Nat) (key : DDCFKey) (x : Int) :
    Option (Except GoError Int) :=
  match Evaluate d ks key.toDCFKey x with
  | none => none
  | some (.error e) => some (.error e)
  | some (.ok y) => some (.ok ((y + key.S) % d.groupOrder))

/-- The conditions under which `mapToGroupElement` succeeds on a block of
the correct length: these depend only on the scheme parameters. -/
def groupOK (d : DCFScheme) : Prop :=
  isPowerOfTwo d.groupOrder = true ∧ d.groupK ≤ d.lambdaInBits ∧
    (d.groupK + 7) / 8 ≤ d.lambdaInBytes

instance (d : DCFScheme) : Decidable (groupOK d) := by
  unfold groupOK; infer_instance

/-- The condition under which `aes.NewCipher` accepts the seeds as keys:
blocks of 16, 24 or 32 bytes (AES-128/192/256). -/
def aesOK (d : DCFScheme) : Prop :=
  d.lambdaInBytes = 16 ∨ d.lambdaInBytes = 24 ∨ d.lambdaInBytes = 32

instance (d : DCFScheme) : Decidable (aesOK d) := by
  unfold aesOK; infer_instance

/-- Total counterpart of `genStep`, used once all checks are known to
pass. -/
def genStepCore (d : DCFScheme) (ks : Bytes → Nat → Nat) (beta : Int)
    (st : GenState) (alphaBit : Nat) : GenState × DCFCorrectionWord :=
  let node0 := expandDCFNodeCore d ks st.s0
  let node1 := expandDCFNodeCore d ks st.s1
  let keep : Bool := alphaBit ≠ 0
  let lose : Bool := ¬ keep
  let seedCW := xorBytes (pick node0.Seeds lose) (pick node1.Seeds lose)
  let v0Lose := mapToGroupElementCore d (pick node0.Values lose)
  let v1Lose := mapToGroupElementCore d (pick node1.Values lose)
  let vCW0 := v1Lose - v0Lose - st.vAlpha
  let vCW1 := if st.t1 = 1 then -vCW0 else vCW0
  let valueCW := if lose = false then vCW1 + (if st.t1 = 1 then -beta else beta) else vCW1
  let v0Keep := mapToGroupElementCore d (pick node0.Values keep)
  let v1Keep := mapToGroupElementCore d (pick node1.Values keep)
  let vAlpha' := st.vAlpha - v1Keep + v0Keep + (if st.t1 = 1 then -valueCW else valueCW)
  let tCWLeft := pick node0.TBits false ^^^ pick node1.TBits false ^^^ alphaBit ^^^ 1
  let tCWRight := pick node0.TBits true ^^^ pick node1.TBits true ^^^ alphaBit
  let tCWKeep := if keep then tCWRight else tCWLeft
  let s0' := if st.t0 = 1 then xorBytes (pick node0.Seeds keep) seedCW else pick node0.Seeds keep
  let s1' := if st.t1 = 1 then xorBytes (pick node1.Seeds keep) seedCW else pick node1.Seeds keep
  let t0' := if st.t0 = 1 then pick node0.TBits keep ^^^ tCWKeep else pick node0.TBits keep
  let t1' := if st.t1 = 1 then pick node1.TBits keep ^^^ tCWKeep else pick node1.TBits keep
  (⟨s0', s1', t0', t1', vAlpha'⟩, ⟨seedCW, valueCW, (tCWLeft, tCWRight)⟩)

/-- Total counterpart of `genLevels`. -/
def genLevelsCore (d : DCFScheme) (ks : Bytes → Nat → Nat) (beta : Int) :
    List Nat → GenState → GenState × List DCFCorrectionWord
  | [], st => (st, [])
  | b :: bs, st =>
    let p := genStepCore d ks beta st b
    let q := genLevelsCore d ks beta bs p.1
    (q.1, p.2 :: q.2)

/-- Total counterpart of `evalStep` that never reduces the accumulator:
the exact integer sum of the per-level contributions. -/
def evalStepNM (d : DCFScheme) (ks : Bytes → Nat → Nat) (negate : Bool)
    (st : EvalState) (xBit : Nat) (cw : DCFCorrectionWord) : EvalState :=
  let node := expandDCFNodeCore d ks st.s
  let sL := if st.t = 1 then xorBytes (pick node.Seeds false) cw.Seed else pick node.Seeds false
  let sR := if st.t = 1 then xorBytes (pick node.Seeds true) cw.Seed else pick node.Seeds true
  let tL := if st.t = 1 then pick node.TBits false ^^^ cw.TBits.1 else pick node.TBits false
  let tR := if st.t = 1 then pick node.TBits true ^^^ cw.TBits.2 else pick node.TBits true
  let vConverted := mapToGroupElementCore d (if xBit = 0 then node.Values.1 else node.Values.2)
  let vc := if st.t = 1 then vConverted + cw.Value else vConverted
  let u := if negate then -vc else vc
  if xBit = 0 then ⟨sL, tL, st.v + u⟩ else ⟨sR, tR, st.v + u⟩

/-- Level loop of the exact-sum evaluator. -/
def evalLevelsNM (d : DCFScheme) (ks : Bytes → Nat → Nat) (negate : Bool) :
    List (Nat × DCFCorrectionWord) → EvalState → EvalState
  | [], st => st
  | (b, cw) :: rest, st => evalLevelsNM d ks negate rest (evalStepNM d ks negate st b cw)

/-- The final correction value computed by `GenerateKeys` (fss2020.go
lines 178-198) from the state left by the level loop. -/
def finalValueCore (d : DCFScheme) (st : GenState) : Int :=
  let c0 := mapToGroupElementCore d st.s0
  let c1 := mapToGroupElementCore d st.s1
  if st.t1 = 1 then -(c1 - c0 - st.vAlpha) else c1 - c0 - st.vAlpha

/-- The final step of `Evaluate` (fss2020.go lines 316-331) on top of the
exact-sum evaluator: Convert of the final seed, plus the final correction
when the control bit is set, negated for party 1, added to the
accumulator. -/
def evalFinalNM (d : DCFScheme) (negate : Bool) (fv : Int) (st : EvalState) : Int :=
  let c := mapToGroupElementCore d st.s
  let w0 := if st.t = 1 then c + fv else c
  st.v + (if negate then -w0 else w0)

/-- Lexicographic strict-less indicator on equally long MSB-first bit
lists: 1 when the first list is smaller, 0 otherwise. -/
def lexInd : List Nat → List Nat → Int
  | x :: xs, a :: as => if x < a then 1 else if a < x then 0 else lexInd xs as
  | _, _ => 0

/-! ### Byte-slice lemmas -/

theorem xorBytes_length (a b : Bytes) : (xorBytes a b).length = min a.length b.length := by
  simp [xorBytes]

theorem xorBytes_cancel_left (a b : Bytes) (h : a.length = b.length) :
    xorBytes a (xorBytes a b) = b := by
  induction a generalizing b with
  | nil => cases b with | nil => rfl | cons y ys => simp at h
  | cons x xs ih =>
    cases b with
    | nil => simp at h
    | cons y ys =>
      have hlen : xs.length = ys.length := by simpa using h
      have hstep : xorBytes (x :: xs) (xorBytes (x :: xs) (y :: ys)) =
          (x ^^^ (x ^^^ y)) :: xorBytes xs (xorBytes xs ys) := rfl
      rw [hstep, ih ys hlen, ← Nat.xor_assoc, Nat.xor_self, Nat.zero_xor]

theorem xorBytes_cancel_right (a b : Bytes) (h : a.length = b.length) :
    xorBytes b (xorBytes a b) = a := by
  induction a generalizing b with
  | nil => cases b with | nil => rfl | cons y ys => simp at h
  | cons x xs ih =>
    cases b with
    | nil => simp at h
    | cons y ys =>
      have hlen : xs.length = ys.length := by simpa using h
      have hstep : xorBytes (y :: ys) (xorBytes (x :: xs) (y :: ys)) =
          (y ^^^ (x ^^^ y)) :: xorBytes ys (xorBytes xs ys) := rfl
      rw [hstep, ih ys hlen, Nat.xor_comm x y, ← Nat.xor_assoc, Nat.xor_self, Nat.zero_xor]

theorem slice_length (l : Bytes) (a b : Nat) :
    (slice l a b).length = min (b - a) (l.length - a) := by
  simp [slice]

/-! ### Lengths and bit bounds of the expanded node -/

theorem prgOutput_length (d : DCFScheme) (ks : Bytes → Nat → Nat) (seed : Bytes) :
    (prgOutput d ks seed).length = (d.lambdaInBytes * 2 + 1) * 2 := by
  simp [prgOutput]

theorem expandDCFNodeCore_seeds_fst_length (d : DCFScheme) (ks : Bytes → Nat → Nat)
    (seed : Bytes) : (expandDCFNodeCore d ks seed).Seeds.1.length = d.lambdaInBytes := by
  simp only [expandDCFNodeCore, slice_length, prgOutput_length]
  omega

theorem expandDCFNodeCore_seeds_snd_length (d : DCFScheme) (ks : Bytes → Nat → Nat)
    (seed : Bytes) : (expandDCFNodeCore d ks seed).Seeds.2.length = d.lambdaInBytes := by
  simp only [expandDCFNodeCore, slice_length, prgOutput_length]
  omega

theorem expandDCFNodeCore_seeds_length (d : DCFScheme) (ks : Bytes → Nat → Nat)
    (seed : Bytes) (dir : Bool) :
    (pick (expandDCFNodeCore d ks seed).Seeds dir).length = d.lambdaInBytes := by
  cases dir
  · exact expandDCFNodeCore_seeds_fst_length d ks seed
  · exact expandDCFNodeCore_seeds_snd_length d ks seed

theorem expandDCFNodeCore_values_fst_length (d : DCFScheme) (ks : Bytes → Nat → Nat)
    (seed : Bytes) : (expandDCFNodeCore d ks seed).Values.1.length = d.lambdaInBytes := by
  simp only [expandDCFNodeCore, slice_length, prgOutput_length]
  omega

theorem expandDCFNodeCore_values_snd_length (d : DCFScheme) (ks : Bytes → Nat → Nat)
    (seed : Bytes) : (expandDCFNodeCore d ks seed).Values.2.length = d.lambdaInBytes := by
  simp only [expandDCFNodeCore, slice_length, prgOutput_length]
  omega

theorem expandDCFNodeCore_values_length (d : DCFScheme) (ks : Bytes → Nat → Nat)
    (seed : Bytes) (dir : Bool) :
    (pick (expandDCFNodeCore d ks seed).Values dir).length = d.lambdaInBytes := by
  cases dir
  · exact expandDCFNodeCore_values_fst_length d ks seed
  · exact expandDCFNodeCore_values_snd_length d ks seed

theorem expandDCFNodeCore_tbits_lt (d : DCFScheme) (ks : Bytes → Nat → Nat)
    (seed : Bytes) (dir : Bool) : pick (expandDCFNodeCore d ks seed).TBits dir < 2 := by
  cases dir <;>
    simp only [expandDCFNodeCore, pick, if_true, if_false] <;>
    exact Nat.lt_succ_of_le (Nat.and_le_right)

theorem expandDCFNode_ok (d : DCFScheme) (ks : Bytes → Nat → Nat) (seed : Bytes)
    (h : seed.length = d.lambdaInBytes) (ha : aesOK d) :
    expandDCFNode d ks seed = .ok (expandDCFNodeCore d ks seed) := by
  unfold expandDCFNode
  rw [if_neg (by simp [h]), if_neg ?_]
  rw [not_not, h]
  exact ha

/-! ### Success and error characterization of the group conversion -/

theorem mapToGroupElement_ok (d : DCFScheme) (input : Bytes)
    (hlen : input.length = d.lambdaInBytes) (hg : groupOK d) :
    mapToGroupElement d input = .ok (mapToGroupElementCore d input) := by
  obtain ⟨h1, h2, h3⟩ := hg
  simp [mapToGroupElement, hlen, h1, Nat.not_lt.mpr h2, Nat.not_lt.mpr h3]

theorem mapToGroupElement_eq_ok (d : DCFScheme) (input : Bytes) (v : Int)
    (h : mapToGroupElement d input = .ok v) :
    input.length = d.lambdaInBytes ∧ groupOK d ∧ v = mapToGroupElementCore d input := by
  unfold mapToGroupElement at h
  split at h
  · simp at h
  next hlen =>
    split at h
    · simp at h
    next h1 =>
      split at h
      · simp at h
      next h2 =>
        split at h
        · simp at h
        next h3 =>
          have hlen' : input.length = d.lambdaInBytes := not_ne_iff.mp hlen
          refine ⟨hlen', ⟨by simpa using h1, Nat.not_lt.mp h2, ?_⟩,
            (Except.ok.injEq _ _ ▸ h).symm⟩
          exact hlen' ▸ Nat.not_lt.mp h3

theorem mapToGroupElement_error_kinds (d : DCFScheme) (input : Bytes) (e : GoError)
    (h : mapToGroupElement d input = .error e) :
    e = .InvalidLength ∨ e = .UnsupportedGroup ∨ e = .InternalError := by
  unfold mapToGroupElement at h
  split at h
  · exact Or.inl (Except.error.injEq _ _ ▸ h).symm
  · split at h
    · exact Or.inr (Or.inl (Except.error.injEq _ _ ▸ h).symm)
    · split at h
      · exact Or.inr (Or.inl (Except.error.injEq _ _ ▸ h).symm)
      · split at h
        · exact Or.inr (Or.inr (Except.error.injEq _ _ ▸ h).symm)
        · simp at h

theorem mapToGroupElement_badGroup (d : DCFScheme) (input : Bytes)
    (hlen : input.length = d.lambdaInBytes)
    (hbad : ¬ (isPowerOfTwo d.groupOrder = true ∧ d.groupK ≤ d.lambdaInBits)) :
    mapToGroupElement d input = .error .UnsupportedGroup := by
  by_cases h1 : isPowerOfTwo d.groupOrder
  · have h2 : d.lambdaInBits < d.groupK := by
      rcases Nat.lt_or_ge d.lambdaInBits d.groupK with h | h
      · exact h
      · exact absurd ⟨h1, h⟩ hbad
    simp [mapToGroupElement, hlen, h1, h2]
  · simp [mapToGroupElement, hlen, h1]

/-! ### Total layer: the same computations with all checks known to pass -/

theorem except_bind_ok {ε α β : Type} (a : α) (f : α → Except ε β) :
    (Except.ok a : Except ε α) >>= f = f a := rfl

theorem except_bind_error {ε α β : Type} (e : ε) (f : α → Except ε β) :
    (Except.error e : Except ε α) >>= f = Except.error e := rfl

theorem xor_cancel_left (a b : Nat) : a ^^^ (a ^^^ b) = b := by
  rw [← Nat.xor_assoc, Nat.xor_self, Nat.zero_xor]

theorem xor_lt_two {a b : Nat} (ha : a < 2) (hb : b < 2) : a ^^^ b < 2 := by
  interval_cases a <;> interval_cases b <;> decide

theorem xor_cancel_right (a b : Nat) : b ^^^ (a ^^^ b) = a := by
  rw [Nat.xor_comm a b, ← Nat.xor_assoc, Nat.xor_self, Nat.zero_xor]

theorem xor_left_comm (a b c : Nat) : a ^^^ (b ^^^ c) = b ^^^ (a ^^^ c) := by
  rw [← Nat.xor_assoc, Nat.xor_comm a b, Nat.xor_assoc]

theorem genStep_ok (d : DCFScheme) (ks : Bytes → Nat → Nat) (beta : Int)
    (st : GenState) (b : Nat) (h0 : st.s0.length = d.lambdaInBytes)
    (h1 : st.s1.length = d.lambdaInBytes) (hg : groupOK d) (ha : aesOK d) :
    genStep d ks beta st b = .ok (genStepCore d ks beta st b) := by
  have e0 := expandDCFNode_ok d ks st.s0 h0 ha
  have e1 := expandDCFNode_ok d ks st.s1 h1 ha
  have c0 : ∀ dir, mapToGroupElement d (pick (expandDCFNodeCore d ks st.s0).Values dir) =
      .ok (mapToGroupElementCore d (pick (expandDCFNodeCore d ks st.s0).Values dir)) :=
    fun dir => mapToGroupElement_ok d _ (expandDCFNodeCore_values_length d ks st.s0 dir) hg
  have c1 : ∀ dir, mapToGroupElement d (pick (expandDCFNodeCore d ks st.s1).Values dir) =
      .ok (mapToGroupElementCore d (pick (expandDCFNodeCore d ks st.s1).Values dir)) :=
    fun dir => mapToGroupElement_ok d _ (expandDCFNodeCore_values_length d ks st.s1 dir) hg
  unfold genStep genStepCore
  simp only [e0, e1, c0, c1, except_bind_ok]

theorem genStepCore_s0_length (d : DCFScheme) (ks : Bytes → Nat → Nat) (beta : Int)
    (st : GenState) (b : Nat) :
    (genStepCore d ks beta st b).1.s0.length = d.lambdaInBytes := by
  simp only [genStepCore]
  split <;>
    simp [xorBytes_length, expandDCFNodeCore_seeds_length]

theorem genStepCore_s1_length (d : DCFScheme) (ks : Bytes → Nat → Nat) (beta : Int)
    (st : GenState) (b : Nat) :
    (genStepCore d ks beta st b).1.s1.length = d.lambdaInBytes := by
  simp only [genStepCore]
  split <;>
    simp [xorBytes_length, expandDCFNodeCore_seeds_length]

theorem genStepCore_cw_seed_length (d : DCFScheme) (ks : Bytes → Nat → Nat) (beta : Int)
    (st : GenState) (b : Nat) :
    (genStepCore d ks beta st b).2.Seed.length = d.lambdaInBytes := by
  simp [genStepCore, xorBytes_length, expandDCFNodeCore_seeds_length]

theorem genLevelsCore_ok (d : DCFScheme) (ks : Bytes → Nat → Nat) (beta : Int)
    (bits : List Nat) : ∀ (st : GenState), st.s0.length = d.lambdaInBytes →
    st.s1.length = d.lambdaInBytes → groupOK d → aesOK d →
    genLevels d ks beta bits st = .ok (genLevelsCore d ks beta bits st) := by
  induction bits with
  | nil => intro st _ _ _ _; rfl
  | cons b bs ih =>
    intro st h0 h1 hg ha
    rw [genLevels, genLevelsCore, genStep_ok d ks beta st b h0 h1 hg ha, except_bind_ok,
      ih _ (genStepCore_s0_length d ks beta st b) (genStepCore_s1_length d ks beta st b)
        hg ha,
      except_bind_ok]

theorem genLevelsCore_final_lengths (d : DCFScheme) (ks : Bytes → Nat → Nat) (beta : Int)
    (bits : List Nat) : ∀ (st : GenState), st.s0.length = d.lambdaInBytes →
    st.s1.length = d.lambdaInBytes →
    (genLevelsCore d ks beta bits st).1.s0.length = d.lambdaInBytes ∧
      (genLevelsCore d ks beta bits st).1.s1.length = d.lambdaInBytes := by
  induction bits with
  | nil => intro st h0 h1; exact ⟨h0, h1⟩
  | cons b bs ih =>
    intro st h0 h1
    exact ih _ (genStepCore_s0_length d ks beta st b) (genStepCore_s1_length d ks beta st b)

theorem genLevelsCore_cw_lengths (d : DCFScheme) (ks : Bytes → Nat → Nat) (beta : Int)
    (bits : List Nat) : ∀ (st : GenState),
    ∀ cw ∈ (genLevelsCore d ks beta bits st).2, cw.Seed.length = d.lambdaInBytes := by
  induction bits with
  | nil => intro st cw hcw; simp [genLevelsCore] at hcw
  | cons b bs ih =>
    intro st cw hcw
    rw [genLevelsCore] at hcw
    rcases List.mem_cons.mp hcw with h | h
    · exact h ▸ genStepCore_cw_seed_length d ks beta st b
    · exact ih _ cw h

theorem genLevelsCore_cws_length (d : DCFScheme) (ks : Bytes → Nat → Nat) (beta : Int)
    (bits : List Nat) : ∀ (st : GenState),
    (genLevelsCore d ks beta bits st).2.length = bits.length := by
  induction bits with
  | nil => intro st; rfl
  | cons b bs ih => intro st; simp [genLevelsCore, ih]

theorem evalStepNM_s_length (d : DCFScheme) (ks : Bytes → Nat → Nat) (negate : Bool)
    (st : EvalState) (b : Nat) (cw : DCFCorrectionWord)
    (hcw : d.lambdaInBytes ≤ cw.Seed.length) :
    (evalStepNM d ks negate st b cw).s.length = d.lambdaInBytes := by
  simp only [evalStepNM]
  split <;> split <;>
    simp only [xorBytes_length, expandDCFNodeCore_seeds_length] <;> omega

theorem expandDCFNode_eq_ok (d : DCFScheme) (ks : Bytes → Nat → Nat) (seed : Bytes)
    (node : ExpandedDCFNode) (h : expandDCFNode d ks seed = .ok node) :
    seed.length = d.lambdaInBytes ∧ aesOK d ∧ node = expandDCFNodeCore d ks seed := by
  unfold expandDCFNode at h
  split at h
  · simp at h
  next hlen =>
    split at h
    · simp at h
    next hsz =>
      have hl : seed.length = d.lambdaInBytes := not_ne_iff.mp hlen
      rw [not_not] at hsz
      refine ⟨hl, ?_, (Except.ok.injEq _ _ ▸ h).symm⟩
      unfold aesOK
      rw [← hl]
      exact hsz

theorem evalStepNM_v_split (d : DCFScheme) (ks : Bytes → Nat → Nat) (negate : Bool)
    (s : Bytes) (t : Nat) (v : Int) (b : Nat) (cw : DCFCorrectionWord) :
    (evalStepNM d ks negate ⟨s, t, v⟩ b cw).s = (evalStepNM d ks negate ⟨s, t, 0⟩ b cw).s ∧
    (evalStepNM d ks negate ⟨s, t, v⟩ b cw).t = (evalStepNM d ks negate ⟨s, t, 0⟩ b cw).t ∧
    (evalStepNM d ks negate ⟨s, t, v⟩ b cw).v = v + (evalStepNM d ks negate ⟨s, t, 0⟩ b cw).v := by
  by_cases hb : b = 0 <;> simp [evalStepNM, hb]

theorem evalStep_NM (d : DCFScheme) (ks : Bytes → Nat → Nat) (negate : Bool)
    (s : Bytes) (t : Nat) (vG vN : Int) (b : Nat) (cw : DCFCorrectionWord)
    (hs : s.length = d.lambdaInBytes) (hg : groupOK d) (ha : aesOK d)
    (hv : vG % d.groupOrder = vN % d.groupOrder) :
    ∃ v', evalStep d ks negate ⟨s, t, vG⟩ b cw =
        .ok ⟨(evalStepNM d ks negate ⟨s, t, vN⟩ b cw).s,
          (evalStepNM d ks negate ⟨s, t, vN⟩ b cw).t, v'⟩ ∧
      v' % d.groupOrder = (evalStepNM d ks negate ⟨s, t, vN⟩ b cw).v % d.groupOrder := by
  have e := expandDCFNode_ok d ks s hs ha
  have cv1 := mapToGroupElement_ok d _ (expandDCFNodeCore_values_fst_length d ks s) hg
  have cv2 := mapToGroupElement_ok d _ (expandDCFNodeCore_values_snd_length d ks s) hg
  by_cases hb : b = 0
  · simp only [evalStep, evalStepNM, e, cv1, cv2, except_bind_ok, hb, if_true, eq_self_iff_true]
    refine ⟨_, rfl, ?_⟩
    rw [Int.add_emod vG, hv, ← Int.add_emod]
  · simp only [evalStep, evalStepNM, e, cv1, cv2, except_bind_ok, hb, if_false]
    refine ⟨_, rfl, ?_⟩
    rw [Int.emod_emod_of_dvd _ dvd_rfl, Int.add_emod vG, hv, ← Int.add_emod]

theorem evalLevels_NM (d : DCFScheme) (ks : Bytes → Nat → Nat) (negate : Bool) :
    ∀ (l : List (Nat × DCFCorrectionWord)) (s : Bytes) (t : Nat) (vG vN : Int),
    s.length = d.lambdaInBytes → (∀ p ∈ l, d.lambdaInBytes ≤ p.2.Seed.length) →
    groupOK d → aesOK d → vG % d.groupOrder = vN % d.groupOrder →
    ∃ v', evalLevels d ks negate l ⟨s, t, vG⟩ =
        .ok ⟨(evalLevelsNM d ks negate l ⟨s, t, vN⟩).s,
          (evalLevelsNM d ks negate l ⟨s, t, vN⟩).t, v'⟩ ∧
      v' % d.groupOrder = (evalLevelsNM d ks negate l ⟨s, t, vN⟩).v % d.groupOrder := by
  intro l
  induction l with
  | nil => intro s t vG vN hs hcw hg ha hv; exact ⟨vG, rfl, hv⟩
  | cons p rest ih =>
    rcases p with ⟨b, cw⟩
    intro s t vG vN hs hcw hg ha hv
    obtain ⟨v', hstep, hv'⟩ := evalStep_NM d ks negate s t vG vN b cw hs hg ha hv
    have hs' : (evalStepNM d ks negate ⟨s, t, vN⟩ b cw).s.length = d.lambdaInBytes :=
      evalStepNM_s_length d ks negate _ b cw (hcw (b, cw) (List.mem_cons_self _ _))
    rcases hst : evalStepNM d ks negate ⟨s, t, vN⟩ b cw with ⟨s', t', vN'⟩
    rw [hst] at hstep hv' hs'
    obtain ⟨v'', hrest, hv''⟩ := ih s' t' v' vN' hs'
      (fun p hp => hcw p (List.mem_cons_of_mem _ hp)) hg ha hv'
    refine ⟨v'', ?_, ?_⟩
    · rw [evalLevels, hstep, except_bind_ok, hrest]
      have : evalLevelsNM d ks negate ((b, cw) :: rest) ⟨s, t, vN⟩ =
          evalLevelsNM d ks negate rest (evalStepNM d ks negate ⟨s, t, vN⟩ b cw) := rfl
      rw [this, hst]
    · have : evalLevelsNM d ks negate ((b, cw) :: rest) ⟨s, t, vN⟩ =
          evalLevelsNM d ks negate rest (evalStepNM d ks negate ⟨s, t, vN⟩ b cw) := rfl
      rw [this, hst]
      exact hv''

theorem evalStepEvery_NM (d : DCFScheme) (ks : Bytes → Nat → Nat) (negate : Bool)
    (s : Bytes) (t : Nat) (vG vN : Int) (b : Nat) (cw : DCFCorrectionWord)
    (hs : s.length = d.lambdaInBytes) (hg : groupOK d) (ha : aesOK d)
    (hv : vG % d.groupOrder = vN % d.groupOrder) :
    ∃ v', evalStepEvery d ks negate ⟨s, t, vG⟩ b cw =
        .ok ⟨(evalStepNM d ks negate ⟨s, t, vN⟩ b cw).s,
          (evalStepNM d ks negate ⟨s, t, vN⟩ b cw).t, v'⟩ ∧
      v' % d.groupOrder = (evalStepNM d ks negate ⟨s, t, vN⟩ b cw).v % d.groupOrder := by
  have e := expandDCFNode_ok d ks s hs ha
  have cv1 := mapToGroupElement_ok d _ (expandDCFNodeCore_values_fst_length d ks s) hg
  have cv2 := mapToGroupElement_ok d _ (expandDCFNodeCore_values_snd_length d ks s) hg
  by_cases hb : b = 0
  · simp only [evalStepEvery, evalStepNM, e, cv1, cv2, except_bind_ok, hb, if_true,
      eq_self_iff_true]
    refine ⟨_, rfl, ?_⟩
    rw [Int.emod_emod_of_dvd _ dvd_rfl, Int.add_emod vG, hv, ← Int.add_emod]
  · simp only [evalStepEvery, evalStepNM, e, cv1, cv2, except_bind_ok, hb, if_false]
    refine ⟨_, rfl, ?_⟩
    rw [Int.emod_emod_of_dvd _ dvd_rfl, Int.add_emod vG, hv, ← Int.add_emod]

theorem evalStep_vs_every (d : DCFScheme) (ks : Bytes → Nat → Nat) (negate : Bool)
    (s : Bytes) (t : Nat) (vG vE : Int) (b : Nat) (cw : DCFCorrectionWord)
    (hv : vG % d.groupOrder = vE % d.groupOrder) :
    (∃ e, evalStep d ks negate ⟨s, t, vG⟩ b cw = .error e ∧
        evalStepEvery d ks negate ⟨s, t, vE⟩ b cw = .error e) ∨
    (∃ stG stE, evalStep d ks negate ⟨s, t, vG⟩ b cw = .ok stG ∧
        evalStepEvery d ks negate ⟨s, t, vE⟩ b cw = .ok stE ∧
        stG.s = stE.s ∧ stG.t = stE.t ∧
        stG.v % d.groupOrder = stE.v % d.groupOrder) := by
  cases hX : expandDCFNode d ks s with
  | error e =>
    left
    exact ⟨e, by simp [evalStep, hX, except_bind_error],
      by simp [evalStepEvery, hX, except_bind_error]⟩
  | ok node =>
    cases hC : mapToGroupElement d (if b = 0 then node.Values.1 else node.Values.2) with
    | error e =>
      left
      exact ⟨e, by simp [evalStep, hX, hC, except_bind_ok, except_bind_error],
        by simp [evalStepEvery, hX, hC, except_bind_ok, except_bind_error]⟩
    | ok vc =>
      right
      obtain ⟨hsL, ha, -⟩ := expandDCFNode_eq_ok d ks s node hX
      obtain ⟨-, hg, -⟩ := mapToGroupElement_eq_ok d _ vc hC
      obtain ⟨vG', hG, hvG⟩ := evalStep_NM d ks negate s t vG vG b cw hsL hg ha rfl
      obtain ⟨vE', hE, hvE⟩ := evalStepEvery_NM d ks negate s t vE vE b cw hsL hg ha rfl
      obtain ⟨hs1, ht1, hv1⟩ := evalStepNM_v_split d ks negate s t vG b cw
      obtain ⟨hs2, ht2, hv2⟩ := evalStepNM_v_split d ks negate s t vE b cw
      refine ⟨_, _, hG, hE, ?_, ?_, ?_⟩
      · show (evalStepNM d ks negate ⟨s, t, vG⟩ b cw).s =
          (evalStepNM d ks negate ⟨s, t, vE⟩ b cw).s
        rw [hs1, hs2]
      · show (evalStepNM d ks negate ⟨s, t, vG⟩ b cw).t =
          (evalStepNM d ks negate ⟨s, t, vE⟩ b cw).t
        rw [ht1, ht2]
      · show vG' % d.groupOrder = vE' % d.groupOrder
        rw [hvG, hvE, hv1, hv2, Int.add_emod vG, hv, ← Int.add_emod]

theorem evalLevels_vs_every (d : DCFScheme) (ks : Bytes → Nat → Nat) (negate : Bool) :
    ∀ (l : List (Nat × DCFCorrectionWord)) (s : Bytes) (t : Nat) (vG vE : Int),
    vG % d.groupOrder = vE % d.groupOrder →
    (∃ e, evalLevels d ks negate l ⟨s, t, vG⟩ = .error e ∧
        evalLevelsEvery d ks negate l ⟨s, t, vE⟩ = .error e) ∨
    (∃ stG stE, evalLevels d ks negate l ⟨s, t, vG⟩ = .ok stG ∧
        evalLevelsEvery d ks negate l ⟨s, t, vE⟩ = .ok stE ∧
        stG.s = stE.s ∧ stG.t = stE.t ∧
        stG.v % d.groupOrder = stE.v % d.groupOrder) := by
  intro l
  induction l with
  | nil =>
    intro s t vG vE hv
    exact Or.inr ⟨⟨s, t, vG⟩, ⟨s, t, vE⟩, rfl, rfl, rfl, rfl, hv⟩
  | cons p rest ih =>
    rcases p with ⟨b, cw⟩
    intro s t vG vE hv
    rcases evalStep_vs_every d ks negate s t vG vE b cw hv with
      ⟨e, hG, hE⟩ | ⟨stG, stE, hG, hE, hss, hts, hvs⟩
    · left
      exact ⟨e, by rw [evalLevels, hG, except_bind_error],
        by rw [evalLevelsEvery, hE, except_bind_error]⟩
    · rcases stG with ⟨sG, tG, vG'⟩
      rcases stE with ⟨sE, tE, vE'⟩
      cases hss
      cases hts
      rcases ih sG tG vG' vE' hvs with ⟨e, hG', hE'⟩ | ⟨a, c, hG', hE', h1, h2, h3⟩
      · left
        exact ⟨e, by rw [evalLevels, hG, except_bind_ok, hG'],
          by rw [evalLevelsEvery, hE, except_bind_ok, hE']⟩
      · right
        exact ⟨a, c, by rw [evalLevels, hG, except_bind_ok, hG'],
          by rw [evalLevelsEvery, hE, except_bind_ok, hE'], h1, h2, h3⟩

/-- C10: neither `GenerateKeys` nor `Evaluate` checks the precondition
n ≥ 1: with n ≤ 0, resp. an empty correction-word list, the source
evaluates `1 << (n-1)` with a negative shift count and panics (modelled
by `none`) instead of returning an error. -/
theorem generateKeys_evaluate_panic_on_nonpositive_n
    (d : DCFScheme) (ks : Bytes → Nat → Nat) (s0 s1 : Bytes)
    (n alpha beta : Int) (key : DCFKey) (x : Int)
    (hn : n ≤ 0) (hkey : key.CWs = []) :
    GenerateKeys d ks s0 s1 n alpha beta = none ∧ Evaluate d ks key x = none := by
  constructor
  · have : n - 1 < 0 := by omega
    simp [GenerateKeys, this]
  · simp [Evaluate, hkey]

/-- Witness for C10 at n = 0 and an empty-CW key. -/
theorem generateKeys_evaluate_panic_on_nonpositive_n_witness :
    (0 : Int) ≤ 0 ∧ (⟨0, [], [], 0⟩ : DCFKey).CWs = [] ∧
      (GenerateKeys (NewDCFScheme 128 (2 ^ 16)) (fun _ _ => 0) [] [] 0 0 1 = none ∧
        Evaluate (NewDCFScheme 128 (2 ^ 16)) (fun _ _ => 0) ⟨0, [], [], 0⟩ 5 = none) :=
  ⟨le_refl 0, rfl,
    generateKeys_evaluate_panic_on_nonpositive_n _ _ _ _ _ _ _ _ _ (le_refl 0) rfl⟩

/-! ### Linearity and party symmetry of the exact-sum evaluator -/

theorem pick_false {α : Type} (p : α × α) : pick p false = p.1 := rfl

theorem pick_true {α : Type} (p : α × α) : pick p true = p.2 := rfl

theorem evalStepNM_shift (d : DCFScheme) (ks : Bytes → Nat → Nat) (negate : Bool)
    (s : Bytes) (t : Nat) (v : Int) (b : Nat) (cw : DCFCorrectionWord) :
    evalStepNM d ks negate ⟨s, t, v⟩ b cw =
      ⟨(evalStepNM d ks negate ⟨s, t, 0⟩ b cw).s, (evalStepNM d ks negate ⟨s, t, 0⟩ b cw).t,
        v + (evalStepNM d ks negate ⟨s, t, 0⟩ b cw).v⟩ := by
  by_cases hb : b = 0 <;> simp [evalStepNM, hb]

theorem evalStepNM_negate (d : DCFScheme) (ks : Bytes → Nat → Nat)
    (s : Bytes) (t : Nat) (v : Int) (b : Nat) (cw : DCFCorrectionWord) :
    evalStepNM d ks true ⟨s, t, -v⟩ b cw =
      ⟨(evalStepNM d ks false ⟨s, t, v⟩ b cw).s, (evalStepNM d ks false ⟨s, t, v⟩ b cw).t,
        -(evalStepNM d ks false ⟨s, t, v⟩ b cw).v⟩ := by
  by_cases hb : b = 0 <;> simp [evalStepNM, hb] <;> ring

theorem evalLevelsNM_shift (d : DCFScheme) (ks : Bytes → Nat → Nat) (negate : Bool) :
    ∀ (l : List (Nat × DCFCorrectionWord)) (s : Bytes) (t : Nat) (v : Int),
    evalLevelsNM d ks negate l ⟨s, t, v⟩ =
      ⟨(evalLevelsNM d ks negate l ⟨s, t, 0⟩).s, (evalLevelsNM d ks negate l ⟨s, t, 0⟩).t,
        v + (evalLevelsNM d ks negate l ⟨s, t, 0⟩).v⟩ := by
  intro l
  induction l with
  | nil => intro s t v; simp [evalLevelsNM]
  | cons p rest ih =>
    rcases p with ⟨b, cw⟩
    intro s t v
    show evalLevelsNM d ks negate rest (evalStepNM d ks negate ⟨s, t, v⟩ b cw) = _
    rw [evalStepNM_shift]
    rcases hF : evalStepNM d ks negate ⟨s, t, 0⟩ b cw with ⟨s', t', u⟩
    dsimp only
    rw [ih s' t' (v + u)]
    have hc : evalLevelsNM d ks negate ((b, cw) :: rest) ⟨s, t, 0⟩ =
        evalLevelsNM d ks negate rest ⟨s', t', u⟩ := by
      show evalLevelsNM d ks negate rest (evalStepNM d ks negate ⟨s, t, 0⟩ b cw) = _
      rw [hF]
    rw [hc, ih s' t' u]
    simp [add_assoc]

theorem evalLevelsNM_negate (d : DCFScheme) (ks : Bytes → Nat → Nat) :
    ∀ (l : List (Nat × DCFCorrectionWord)) (s : Bytes) (t : Nat) (v : Int),
    evalLevelsNM d ks true l ⟨s, t, -v⟩ =
      ⟨(evalLevelsNM d ks false l ⟨s, t, v⟩).s, (evalLevelsNM d ks false l ⟨s, t, v⟩).t,
        -(evalLevelsNM d ks false l ⟨s, t, v⟩).v⟩ := by
  intro l
  induction l with
  | nil => intro s t v; rfl
  | cons p rest ih =>
    rcases p with ⟨b, cw⟩
    intro s t v
    show evalLevelsNM d ks true rest (evalStepNM d ks true ⟨s, t, -v⟩ b cw) = _
    rw [evalStepNM_negate]
    rcases hF : evalStepNM d ks false ⟨s, t, v⟩ b cw with ⟨s', t', v'⟩
    dsimp only
    rw [ih s' t' v']
    have hc : evalLevelsNM d ks false ((b, cw) :: rest) ⟨s, t, v⟩ =
        evalLevelsNM d ks false rest ⟨s', t', v'⟩ := by
      show evalLevelsNM d ks false rest (evalStepNM d ks false ⟨s, t, v⟩ b cw) = _
      rw [hF]
    rw [hc]

/-! ### The central on-path invariant of the construction -/

theorem genStepCore_t_inv (d : DCFScheme) (ks : Bytes → Nat → Nat) (beta : Int)
    (st : GenState) (a : Nat) (ha : a < 2) (ht0 : st.t0 < 2) (ht1 : st.t1 < 2)
    (hx : st.t0 ^^^ st.t1 = 1) :
    (genStepCore d ks beta st a).1.t0 < 2 ∧ (genStepCore d ks beta st a).1.t1 < 2 ∧
      (genStepCore d ks beta st a).1.t0 ^^^ (genStepCore d ks beta st a).1.t1 = 1 := by
  have hp00 := expandDCFNodeCore_tbits_lt d ks st.s0 false
  have hp01 := expandDCFNodeCore_tbits_lt d ks st.s0 true
  have hp10 := expandDCFNodeCore_tbits_lt d ks st.s1 false
  have hp11 := expandDCFNodeCore_tbits_lt d ks st.s1 true
  rw [pick_false] at hp00 hp10
  rw [pick_true] at hp01 hp11
  rcases (by omega : a = 0 ∨ a = 1) with rfl | rfl <;>
    rcases (by omega : st.t0 = 0 ∨ st.t0 = 1) with h0 | h0 <;>
      rcases (by omega : st.t1 = 0 ∨ st.t1 = 1) with h1 | h1 <;>
        rw [h0, h1] at hx <;>
          first
            | exact absurd hx (by decide)
            | (rcases (by omega : (expandDCFNodeCore d ks st.s0).TBits.1 = 0 ∨
                  (expandDCFNodeCore d ks st.s0).TBits.1 = 1) with hq0 | hq0 <;>
                rcases (by omega : (expandDCFNodeCore d ks st.s1).TBits.1 = 0 ∨
                    (expandDCFNodeCore d ks st.s1).TBits.1 = 1) with hq1 | hq1 <;>
                  rcases (by omega : (expandDCFNodeCore d ks st.s0).TBits.2 = 0 ∨
                      (expandDCFNodeCore d ks st.s0).TBits.2 = 1) with hq2 | hq2 <;>
                    rcases (by omega : (expandDCFNodeCore d ks st.s1).TBits.2 = 0 ∨
                        (expandDCFNodeCore d ks st.s1).TBits.2 = 1) with hq3 | hq3 <;>
                      simp [genStepCore, pick, h0, h1, hq0, hq1, hq2, hq3])

/-- On the path of α (the evaluated bit equals the α bit), each party's
evaluation step reproduces exactly the generator's next state for that
party, and the two contributions sum to the change of the generator's
accumulator. -/
theorem genStepCore_onpath_eval (d : DCFScheme) (ks : Bytes → Nat → Nat) (beta : Int)
    (st : GenState) (a : Nat) (ha : a < 2) (ht0 : st.t0 < 2) (ht1 : st.t1 < 2)
    (hx : st.t0 ^^^ st.t1 = 1) :
    (evalStepNM d ks false ⟨st.s0, st.t0, 0⟩ a (genStepCore d ks beta st a).2).s =
        (genStepCore d ks beta st a).1.s0 ∧
    (evalStepNM d ks false ⟨st.s0, st.t0, 0⟩ a (genStepCore d ks beta st a).2).t =
        (genStepCore d ks beta st a).1.t0 ∧
    (evalStepNM d ks true ⟨st.s1, st.t1, 0⟩ a (genStepCore d ks beta st a).2).s =
        (genStepCore d ks beta st a).1.s1 ∧
    (evalStepNM d ks true ⟨st.s1, st.t1, 0⟩ a (genStepCore d ks beta st a).2).t =
        (genStepCore d ks beta st a).1.t1 ∧
    (evalStepNM d ks false ⟨st.s0, st.t0, 0⟩ a (genStepCore d ks beta st a).2).v +
        (evalStepNM d ks true ⟨st.s1, st.t1, 0⟩ a (genStepCore d ks beta st a).2).v =
      (genStepCore d ks beta st a).1.vAlpha - st.vAlpha := by
  rcases (by omega : a = 0 ∨ a = 1) with rfl | rfl <;>
    rcases (by omega : st.t0 = 0 ∨ st.t0 = 1) with h0 | h0 <;>
      rcases (by omega : st.t1 = 0 ∨ st.t1 = 1) with h1 | h1 <;>
        rw [h0, h1] at hx <;>
          first
            | exact absurd hx (by decide)
            | (simp [genStepCore, evalStepNM, pick, h0, h1] <;> ring)

/-- Off the path of α (the evaluated bit differs from the α bit), the two
parties reach equal states, and their contributions sum to β exactly when
the evaluated bit is below the α bit (the region x < α), minus the
generator's accumulator. -/
theorem genStepCore_offpath_eval (d : DCFScheme) (ks : Bytes → Nat → Nat) (beta : Int)
    (st : GenState) (a x : Nat) (ha : a < 2) (hxb : x < 2) (hne : x ≠ a)
    (ht0 : st.t0 < 2) (ht1 : st.t1 < 2) (hx : st.t0 ^^^ st.t1 = 1) :
    (evalStepNM d ks false ⟨st.s0, st.t0, 0⟩ x (genStepCore d ks beta st a).2).s =
        (evalStepNM d ks true ⟨st.s1, st.t1, 0⟩ x (genStepCore d ks beta st a).2).s ∧
    (evalStepNM d ks false ⟨st.s0, st.t0, 0⟩ x (genStepCore d ks beta st a).2).t =
        (evalStepNM d ks true ⟨st.s1, st.t1, 0⟩ x (genStepCore d ks beta st a).2).t ∧
    (evalStepNM d ks false ⟨st.s0, st.t0, 0⟩ x (genStepCore d ks beta st a).2).v +
        (evalStepNM d ks true ⟨st.s1, st.t1, 0⟩ x (genStepCore d ks beta st a).2).v =
      (if x < a then beta else 0) - st.vAlpha := by
  rcases (by omega : a = 0 ∧ x = 1 ∨ a = 1 ∧ x = 0 ∨ a = x) with ⟨rfl, rfl⟩ | ⟨rfl, rfl⟩ | h
  rotate_right
  · exact absurd h.symm hne
  all_goals
    rcases (by omega : st.t0 = 0 ∨ st.t0 = 1) with h0 | h0 <;>
      rcases (by omega : st.t1 = 0 ∨ st.t1 = 1) with h1 | h1 <;>
        rw [h0, h1] at hx <;>
          first
            | exact absurd hx (by decide)
            | (simp [genStepCore, evalStepNM, pick, h0, h1, Nat.xor_assoc, Nat.xor_comm,
                xor_left_comm, Nat.xor_self, Nat.xor_zero, Nat.zero_xor, xor_cancel_left,
                xor_cancel_right, xorBytes_cancel_left, xorBytes_cancel_right,
                expandDCFNodeCore_seeds_fst_length, expandDCFNodeCore_seeds_snd_length] <;>
              ring)

/-- After the last level, the two parties' final contributions close the
telescope: together they contribute the entry accumulators minus the
generator's final accumulator. -/
theorem finalValueCore_sum (d : DCFScheme) (st : GenState) (v0 v1 : Int)
    (ht0 : st.t0 < 2) (ht1 : st.t1 < 2) (hx : st.t0 ^^^ st.t1 = 1) :
    evalFinalNM d false (finalValueCore d st) ⟨st.s0, st.t0, v0⟩ +
      evalFinalNM d true (finalValueCore d st) ⟨st.s1, st.t1, v1⟩ =
      v0 + v1 - st.vAlpha := by
  rcases (by omega : st.t0 = 0 ∨ st.t0 = 1) with h0 | h0 <;>
    rcases (by omega : st.t1 = 0 ∨ st.t1 = 1) with h1 | h1 <;>
      rw [h0, h1] at hx <;>
        first
          | exact absurd hx (by decide)
          | (simp [evalFinalNM, finalValueCore, h0, h1] <;> ring)

theorem evalLevelsNM_cons (d : DCFScheme) (ks : Bytes → Nat → Nat) (negate : Bool)
    (b : Nat) (cw : DCFCorrectionWord) (rest : List (Nat × DCFCorrectionWord))
    (st : EvalState) :
    evalLevelsNM d ks negate ((b, cw) :: rest) st =
      evalLevelsNM d ks negate rest (evalStepNM d ks negate st b cw) := rfl

theorem evalState_eta (st : EvalState) : (⟨st.s, st.t, st.v⟩ : EvalState) = st := rfl

theorem evalFinalNM_shift (d : DCFScheme) (negate : Bool) (fv : Int) (s : Bytes)
    (t : Nat) (u v : Int) :
    evalFinalNM d negate fv ⟨s, t, u + v⟩ = u + evalFinalNM d negate fv ⟨s, t, v⟩ := by
  simp [evalFinalNM]
  ring

theorem evalFinalNM_negate (d : DCFScheme) (fv : Int) (s : Bytes) (t : Nat) (v : Int) :
    evalFinalNM d true fv ⟨s, t, -v⟩ = -evalFinalNM d false fv ⟨s, t, v⟩ := by
  simp [evalFinalNM]
  ring

theorem lexInd_cons_self (x : Nat) (xs as : List Nat) :
    lexInd (x :: xs) (x :: as) = lexInd xs as := by
  simp [lexInd]

theorem lexInd_cons_ne (x a : Nat) (hxa : x ≠ a) (xs as : List Nat) :
    lexInd (x :: xs) (a :: as) = if x < a then 1 else 0 := by
  rcases (by omega : x < a ∨ a < x) with h | h
  · simp [lexInd, h]
  · simp [lexInd, h, (by omega : ¬ x < a)]

/-- The exact-integer correctness of the level loops: for any entry state
satisfying the on-path invariant, the two parties' exact evaluation sums,
final contributions included, telescope to β times the strict-less
indicator of the evaluated bits against the α bits, minus the entry
accumulator. -/
theorem genLevelsCore_eval_sum (d : DCFScheme) (ks : Bytes → Nat → Nat) (beta : Int) :
    ∀ (bitsA bitsX : List Nat) (st : GenState),
    bitsA.length = bitsX.length →
    (∀ b ∈ bitsA, b < 2) → (∀ b ∈ bitsX, b < 2) →
    st.t0 < 2 → st.t1 < 2 → st.t0 ^^^ st.t1 = 1 →
    evalFinalNM d false (finalValueCore d (genLevelsCore d ks beta bitsA st).1)
        (evalLevelsNM d ks false (bitsX.zip (genLevelsCore d ks beta bitsA st).2)
          ⟨st.s0, st.t0, 0⟩) +
      evalFinalNM d true (finalValueCore d (genLevelsCore d ks beta bitsA st).1)
        (evalLevelsNM d ks true (bitsX.zip (genLevelsCore d ks beta bitsA st).2)
          ⟨st.s1, st.t1, 0⟩) =
      beta * lexInd bitsX bitsA - st.vAlpha := by
  intro bitsA
  induction bitsA with
  | nil =>
    intro bitsX st hlen _ _ ht0 ht1 hx
    cases bitsX with
    | cons y ys => simp at hlen
    | nil =>
      simpa [genLevelsCore, evalLevelsNM, lexInd] using
        finalValueCore_sum d st 0 0 ht0 ht1 hx
  | cons a as ih =>
    intro bitsX st hlen hA hX ht0 ht1 hx
    cases bitsX with
    | nil => simp at hlen
    | cons x xs =>
      have ha : a < 2 := hA a (List.mem_cons_self _ _)
      have hxb : x < 2 := hX x (List.mem_cons_self _ _)
      have hA' : ∀ b ∈ as, b < 2 := fun b hb => hA b (List.mem_cons_of_mem _ hb)
      have hX' : ∀ b ∈ xs, b < 2 := fun b hb => hX b (List.mem_cons_of_mem _ hb)
      have hlen' : as.length = xs.length := by simpa using hlen
      obtain ⟨hti0, hti1, htix⟩ := genStepCore_t_inv d ks beta st a ha ht0 ht1 hx
      rcases hstep : genStepCore d ks beta st a with ⟨st', cw⟩
      rw [hstep] at hti0 hti1 htix
      dsimp only at hti0 hti1 htix
      have hG : genLevelsCore d ks beta (a :: as) st =
          ((genLevelsCore d ks beta as st').1, cw :: (genLevelsCore d ks beta as st').2) := by
        simp only [genLevelsCore, hstep]
      rw [hG]
      dsimp only
      rw [List.zip_cons_cons, evalLevelsNM_cons, evalLevelsNM_cons]
      by_cases hxa : x = a
      · subst hxa
        obtain ⟨hs0, ht0', hs1, ht1', hu⟩ :=
          genStepCore_onpath_eval d ks beta st x ha ht0 ht1 hx
        rw [hstep] at hs0 ht0' hs1 ht1' hu
        dsimp only at hs0 ht0' hs1 ht1' hu
        rcases hF0 : evalStepNM d ks false ⟨st.s0, st.t0, 0⟩ x cw with ⟨e0s, e0t, u0⟩
        rcases hF1 : evalStepNM d ks true ⟨st.s1, st.t1, 0⟩ x cw with ⟨e1s, e1t, u1⟩
        rw [hF0] at hs0 ht0' hu
        rw [hF1] at hs1 ht1' hu
        dsimp only at hs0 ht0' hs1 ht1' hu
        subst hs0; subst ht0'; subst hs1; subst ht1'
        rw [evalLevelsNM_shift d ks false _ st'.s0 st'.t0 u0,
          evalLevelsNM_shift d ks true _ st'.s1 st'.t1 u1,
          evalFinalNM_shift, evalFinalNM_shift, evalState_eta, evalState_eta,
          lexInd_cons_self]
        have ihx := ih xs st' hlen' hA' hX' hti0 hti1 htix
        linear_combination hu + ihx
      · obtain ⟨hseq, hteq, hu⟩ :=
          genStepCore_offpath_eval d ks beta st a x ha hxb hxa ht0 ht1 hx
        rw [hstep] at hseq hteq hu
        dsimp only at hseq hteq hu
        rcases hF0 : evalStepNM d ks false ⟨st.s0, st.t0, 0⟩ x cw with ⟨e0s, e0t, u0⟩
        rcases hF1 : evalStepNM d ks true ⟨st.s1, st.t1, 0⟩ x cw with ⟨e1s, e1t, u1⟩
        rw [hF0] at hseq hteq hu
        rw [hF1] at hseq hteq hu
        dsimp only at hseq hteq hu
        subst hseq; subst hteq
        rw [evalLevelsNM_shift d ks false _ e0s e0t u0,
          evalLevelsNM_shift d ks true _ e0s e0t u1,
          evalFinalNM_shift, evalFinalNM_shift]
        have hneg : evalLevelsNM d ks true (xs.zip (genLevelsCore d ks beta as st').2)
            ⟨e0s, e0t, 0⟩ =
            ⟨(evalLevelsNM d ks false (xs.zip (genLevelsCore d ks beta as st').2)
                ⟨e0s, e0t, 0⟩).s,
              (evalLevelsNM d ks false (xs.zip (genLevelsCore d ks beta as st').2)
                ⟨e0s, e0t, 0⟩).t,
              -(evalLevelsNM d ks false (xs.zip (genLevelsCore d ks beta as st').2)
                ⟨e0s, e0t, 0⟩).v⟩ := by
          have := evalLevelsNM_negate d ks (xs.zip (genLevelsCore d ks beta as st').2)
            e0s e0t 0
          simpa using this
        rw [hneg, evalFinalNM_negate, evalState_eta, lexInd_cons_ne x a hxa]
        by_cases hlt : x < a <;>
          simp only [hlt, if_true, if_false, mul_one, mul_zero] at hu ⊢ <;>
          linarith [hu]

/-! ### MSB-first bit decompositions and the lexicographic order -/

theorem msbBits_length (n v : Nat) : (msbBits n v).length = n := by
  simp [msbBits]

theorem msbBits_lt_two (n v : Nat) : ∀ b ∈ msbBits n v, b < 2 := by
  intro b hb
  simp only [msbBits, List.mem_map, List.mem_range] at hb
  obtain ⟨i, -, rfl⟩ := hb
  have : v >>> (n - 1 - i) &&& 1 ≤ 1 := Nat.and_le_right
  omega

theorem msbBits_succ (m v : Nat) :
    msbBits (m + 1) v = (v >>> m &&& 1) :: msbBits m v := by
  unfold msbBits
  rw [List.range_succ_eq_map, List.map_cons, List.map_map]
  refine congrArg₂ List.cons (by simp) ?_
  apply List.map_congr_left
  intro i hi
  rw [List.mem_range] at hi
  show v >>> (m + 1 - 1 - (i + 1)) &&& 1 = v >>> (m - 1 - i) &&& 1
  have h2 : m + 1 - 1 - (i + 1) = m - 1 - i := by omega
  rw [h2]

theorem shiftRight_and_one (v j : Nat) : v >>> j &&& 1 = (v.testBit j).toNat := by
  rw [Nat.testBit_to_div_mod, Nat.shiftRight_eq_div_pow, Nat.and_one_is_mod]
  rcases Nat.mod_two_eq_zero_or_one (v / 2 ^ j) with h | h <;> simp [h]

theorem msbBits_mod (m v : Nat) : msbBits m (v % 2 ^ m) = msbBits m v := by
  unfold msbBits
  apply List.map_congr_left
  intro i hi
  rw [List.mem_range] at hi
  rw [shiftRight_and_one, shiftRight_and_one, Nat.testBit_mod_two_pow]
  have : m - 1 - i < m := by omega
  simp [this]

theorem lexInd_msbBits (n : Nat) : ∀ (x a : Nat), x < 2 ^ n → a < 2 ^ n →
    lexInd (msbBits n x) (msbBits n a) = if x < a then 1 else 0 := by
  induction n with
  | zero =>
    intro x a hx ha
    rw [pow_zero] at hx ha
    have hx0 : x = 0 := by omega
    have ha0 : a = 0 := by omega
    subst hx0; subst ha0
    simp [msbBits, lexInd]
  | succ m ihm =>
    intro x a hx ha
    rw [msbBits_succ, msbBits_succ]
    have hpow : (0:Nat) < 2 ^ m := Nat.pos_pow_of_pos m (by omega)
    have hdx : x / 2 ^ m < 2 := by
      apply Nat.div_lt_of_lt_mul
      rw [pow_succ] at hx
      omega
    have hda : a / 2 ^ m < 2 := by
      apply Nat.div_lt_of_lt_mul
      rw [pow_succ] at ha
      omega
    have hhx : x >>> m &&& 1 = x / 2 ^ m := by
      rw [Nat.shiftRight_eq_div_pow, Nat.and_one_is_mod]
      exact Nat.mod_eq_of_lt hdx
    have hha : a >>> m &&& 1 = a / 2 ^ m := by
      rw [Nat.shiftRight_eq_div_pow, Nat.and_one_is_mod]
      exact Nat.mod_eq_of_lt hda
    rw [hhx, hha]
    have hxd := Nat.div_add_mod x (2 ^ m)
    have had := Nat.div_add_mod a (2 ^ m)
    rcases (by omega : x / 2 ^ m < a / 2 ^ m ∨ a / 2 ^ m < x / 2 ^ m ∨
        x / 2 ^ m = a / 2 ^ m) with h | h | heq
    · have hx2 : x < 2 ^ m := by
        have h0 : x / 2 ^ m = 0 := by omega
        rw [h0] at hxd
        have := Nat.mod_lt x hpow
        omega
      have ha2 : 2 ^ m ≤ a := by
        have h1 : a / 2 ^ m = 1 := by omega
        rw [h1] at had
        omega
      have hlt : x < a := by omega
      simp [lexInd, h, hlt]
    · have ha2 : a < 2 ^ m := by
        have h0 : a / 2 ^ m = 0 := by omega
        rw [h0] at had
        have := Nat.mod_lt a hpow
        omega
      have hx2 : 2 ^ m ≤ x := by
        have h1 : x / 2 ^ m = 1 := by omega
        rw [h1] at hxd
        omega
      have hlt : ¬ x < a := by omega
      simp [lexInd, (by omega : ¬ x / 2 ^ m < a / 2 ^ m), h, hlt,
        (by omega : a / 2 ^ m ≤ x / 2 ^ m)]
    · have hmx := Nat.mod_lt x hpow
      have hma := Nat.mod_lt a hpow
      have hiff : (x % 2 ^ m < a % 2 ^ m) ↔ (x < a) := by
        rw [heq] at hxd
        generalize 2 ^ m * (a / 2 ^ m) = w at hxd had
        omega
      simp only [lexInd, heq, lt_irrefl, if_false]
      rw [← msbBits_mod m x, ← msbBits_mod m a,
        ihm (x % 2 ^ m) (a % 2 ^ m) hmx hma, if_congr hiff rfl rfl]

/-! ### Arithmetic of the 64-bit threshold -/

theorem wrap64_pow_small (m : Nat) (h : m ≤ 62) : wrap64 (2 ^ m) = 2 ^ m := by
  have h1 : (2:Int) ^ m ≤ 2 ^ 62 := pow_le_pow_right (by norm_num) h
  have h2 : (0:Int) < 2 ^ m := pow_pos (by norm_num) m
  unfold wrap64
  rw [Int.emod_eq_of_lt (by norm_num; omega) (by norm_num ; omega)]
  ring

theorem wrap64_pow_le_zero (m : Nat) (h : 63 ≤ m) : wrap64 (2 ^ m) ≤ 0 := by
  rcases (by omega : m = 63 ∨ 64 ≤ m) with rfl | h64
  · decide
  · have he : (2:Int) ^ m = 2 ^ 63 + 2 ^ 64 * 2 ^ (m - 64) - 2 ^ 63 := by
      rw [← pow_add]
      have : 64 + (m - 64) = m := by omega
      rw [this]
      ring
    unfold wrap64
    rw [he]
    have : (2:Int) ^ 63 + 2 ^ 64 * 2 ^ (m - 64) - 2 ^ 63 + 2 ^ 63 =
        2 ^ 63 + 2 ^ 64 * 2 ^ (m - 64) := by ring
    rw [this, Int.add_mul_emod_self_left]
    norm_num

/-! ### Error and success analysis of the monadic pipelines -/

/-- When the scheme parameters are invalid, the group conversion fails
with one and the same error on every block of the correct length. -/
theorem mapToGroupElement_not_ok (d : DCFScheme) (hg : ¬ groupOK d) :
    ∃ e, (e = GoError.UnsupportedGroup ∨ e = GoError.InternalError) ∧
      ∀ input : Bytes, input.length = d.lambdaInBytes →
        mapToGroupElement d input = .error e := by
  by_cases h1 : isPowerOfTwo d.groupOrder
  · by_cases h2 : d.groupK ≤ d.lambdaInBits
    · have h3 : ¬ ((d.groupK + 7) / 8 ≤ d.lambdaInBytes) := fun hc => hg ⟨h1, h2, hc⟩
      refine ⟨.InternalError, Or.inr rfl, fun input hlen => ?_⟩
      simp [mapToGroupElement, hlen, h1, Nat.not_lt.mpr h2, Nat.lt_of_not_le h3]
    · exact ⟨.UnsupportedGroup, Or.inl rfl, fun input hlen =>
        mapToGroupElement_badGroup d input hlen (fun hc => h2 hc.2)⟩
  · exact ⟨.UnsupportedGroup, Or.inl rfl, fun input hlen =>
      mapToGroupElement_badGroup d input hlen (fun hc => h1 hc.1)⟩

/-- When every conversion fails with error e, one generator level fails
with e as well (the expansions succeed, the first conversion does not). -/
theorem genStep_convert_error (d : DCFScheme) (ks : Bytes → Nat → Nat) (beta : Int)
    (st : GenState) (b : Nat) (e : GoError)
    (h0 : st.s0.length = d.lambdaInBytes) (h1 : st.s1.length = d.lambdaInBytes)
    (ha : aesOK d)
    (hC : ∀ input : Bytes, input.length = d.lambdaInBytes →
      mapToGroupElement d input = .error e) :
    genStep d ks beta st b = .error e := by
  have e0 := expandDCFNode_ok d ks st.s0 h0 ha
  have e1 := expandDCFNode_ok d ks st.s1 h1 ha
  have c0 : ∀ dir, mapToGroupElement d (pick (expandDCFNodeCore d ks st.s0).Values dir) =
      .error e := fun dir => hC _ (expandDCFNodeCore_values_length d ks st.s0 dir)
  simp only [genStep, e0, e1, c0, except_bind_ok, except_bind_error]

/-- A successful generator level forces correct seed lengths and valid
scheme parameters. -/
theorem genStep_ok_inv (d : DCFScheme) (ks : Bytes → Nat → Nat) (beta : Int)
    (st : GenState) (b : Nat) (p : GenState × DCFCorrectionWord)
    (h : genStep d ks beta st b = .ok p) :
    st.s0.length = d.lambdaInBytes ∧ st.s1.length = d.lambdaInBytes ∧
      groupOK d ∧ aesOK d := by
  have hl0 : st.s0.length = d.lambdaInBytes := by
    by_contra hne
    have hbad : genStep d ks beta st b = .error .InvalidLength := by
      unfold genStep
      rw [show expandDCFNode d ks st.s0 = .error .InvalidLength from by
        simp [expandDCFNode, hne], except_bind_error]
    rw [hbad] at h
    cases h
  have haes : aesOK d := by
    by_contra hna
    have hbad : genStep d ks beta st b = .error .CryptoFailure := by
      unfold genStep
      rw [show expandDCFNode d ks st.s0 = .error .CryptoFailure from by
        unfold expandDCFNode
        rw [if_neg (by simp [hl0]), if_pos ?_]
        rw [hl0]
        exact hna, except_bind_error]
    rw [hbad] at h
    cases h
  have hl1 : st.s1.length = d.lambdaInBytes := by
    by_contra hne
    have hbad : genStep d ks beta st b = .error .InvalidLength := by
      unfold genStep
      rw [expandDCFNode_ok d ks st.s0 hl0 haes, except_bind_ok,
        show expandDCFNode d ks st.s1 = .error .InvalidLength from by
          simp [expandDCFNode, hne], except_bind_error]
    rw [hbad] at h
    cases h
  refine ⟨hl0, hl1, ?_, haes⟩
  by_contra hg
  obtain ⟨e, -, hC⟩ := mapToGroupElement_not_ok d hg
  rw [genStep_convert_error d ks beta st b e hl0 hl1 haes hC] at h
  cases h

/-- A successful run of the whole level loop on at least one level forces
correct seed lengths and valid scheme parameters. -/
theorem genLevels_cons_ok_inv (d : DCFScheme) (ks : Bytes → Nat → Nat) (beta : Int)
    (b : Nat) (bs : List Nat) (st : GenState) (r : GenState × List DCFCorrectionWord)
    (h : genLevels d ks beta (b :: bs) st = .ok r) :
    st.s0.length = d.lambdaInBytes ∧ st.s1.length = d.lambdaInBytes ∧
      groupOK d ∧ aesOK d := by
  rw [genLevels] at h
  cases hS : genStep d ks beta st b with
  | error e => rw [hS, except_bind_error] at h; cases h
  | ok p => exact genStep_ok_inv d ks beta st b p hS

theorem evalLevelsNM_final_s_length (d : DCFScheme) (ks : Bytes → Nat → Nat)
    (negate : Bool) : ∀ (l : List (Nat × DCFCorrectionWord)) (st : EvalState),
    st.s.length = d.lambdaInBytes → (∀ p ∈ l, d.lambdaInBytes ≤ p.2.Seed.length) →
    (evalLevelsNM d ks negate l st).s.length = d.lambdaInBytes := by
  intro l
  induction l with
  | nil => intro st hs _; exact hs
  | cons p rest ih =>
    rcases p with ⟨b, cw⟩
    intro st hs hcw
    show (evalLevelsNM d ks negate rest (evalStepNM d ks negate st b cw)).s.length = _
    exact ih _ (evalStepNM_s_length d ks negate st b cw (hcw (b, cw) (List.mem_cons_self _ _)))
      (fun q hq => hcw q (List.mem_cons_of_mem _ hq))

/-- Inversion of a successful `GenerateKeys` run: the inputs were valid
and the two keys are exactly the pure construction from the level loop. -/
theorem generateKeys_ok_inv (d : DCFScheme) (ks : Bytes → Nat → Nat)
    (s0 s1 : Bytes) (n alpha beta : Int) (k0 k1 : DCFKey)
    (hgen : GenerateKeys d ks s0 s1 n alpha beta = some (Except.ok (k0, k1))) :
    1 ≤ n ∧ n.toNat ≤ 63 ∧
      s0.length = d.lambdaInBytes ∧ s1.length = d.lambdaInBytes ∧
      groupOK d ∧ aesOK d ∧
      -(2 ^ (n.toNat - 1) : Int) ≤ alpha ∧ alpha < 2 ^ (n.toNat - 1) ∧
      k0 = ⟨0, s0,
        (genLevelsCore d ks beta
          (msbBits n.toNat (alpha + 2 ^ (n.toNat - 1)).toNat) ⟨s0, s1, 0, 1, 0⟩).2,
        finalValueCore d (genLevelsCore d ks beta
          (msbBits n.toNat (alpha + 2 ^ (n.toNat - 1)).toNat) ⟨s0, s1, 0, 1, 0⟩).1⟩ ∧
      k1 = ⟨1, s1,
        (genLevelsCore d ks beta
          (msbBits n.toNat (alpha + 2 ^ (n.toNat - 1)).toNat) ⟨s0, s1, 0, 1, 0⟩).2,
        finalValueCore d (genLevelsCore d ks beta
          (msbBits n.toNat (alpha + 2 ^ (n.toNat - 1)).toNat) ⟨s0, s1, 0, 1, 0⟩).1⟩ := by
  unfold GenerateKeys at hgen
  split at hgen
  · simp at hgen
  next hn1 =>
    have hn : 1 ≤ n := by omega
    have hexp : (n - 1).toNat = n.toNat - 1 := by omega
    rw [hexp] at hgen
    dsimp only at hgen
    split at hgen
    · simp at hgen
    next hrange =>
      push_neg at hrange
      obtain ⟨hα2, hα1⟩ := hrange
      have hTpos : (0:Int) < wrap64 (2 ^ (n.toNat - 1)) := by linarith
      have h62 : n.toNat - 1 ≤ 62 := by
        by_contra hc
        have := wrap64_pow_le_zero (n.toNat - 1) (by omega)
        linarith
      have hT : wrap64 ((2:Int) ^ (n.toNat - 1)) = 2 ^ (n.toNat - 1) :=
        wrap64_pow_small _ h62
      rw [hT] at hgen hα1 hα2
      rw [Option.some.injEq] at hgen
      obtain ⟨m, hm⟩ : ∃ m, n.toNat = m + 1 := ⟨n.toNat - 1, by omega⟩
      cases hrunE : genLevels d ks beta
          (msbBits n.toNat (alpha + 2 ^ (n.toNat - 1)).toNat) ⟨s0, s1, 0, 1, 0⟩ with
      | error e => rw [hrunE, except_bind_error] at hgen; cases hgen
      | ok r =>
        obtain ⟨hl0, hl1, hg, ha⟩ :
            s0.length = d.lambdaInBytes ∧ s1.length = d.lambdaInBytes ∧
              groupOK d ∧ aesOK d := by
          have h' := hrunE
          rw [hm, msbBits_succ] at h'
          exact genLevels_cons_ok_inv d ks beta _ _ _ _ h'
        have hcore := genLevelsCore_ok d ks beta
          (msbBits n.toNat (alpha + 2 ^ (n.toNat - 1)).toNat) ⟨s0, s1, 0, 1, 0⟩
          hl0 hl1 hg ha
        rw [hrunE, Except.ok.injEq] at hcore
        subst hcore
        rw [hrunE, except_bind_ok] at hgen
        obtain ⟨hf0, hf1⟩ := genLevelsCore_final_lengths d ks beta
          (msbBits n.toNat (alpha + 2 ^ (n.toNat - 1)).toNat) ⟨s0, s1, 0, 1, 0⟩ hl0 hl1
        rw [mapToGroupElement_ok d _ hf0 hg, except_bind_ok,
          mapToGroupElement_ok d _ hf1 hg, except_bind_ok] at hgen
        rw [Except.ok.injEq, Prod.mk.injEq] at hgen
        obtain ⟨hk0, hk1⟩ := hgen
        refine ⟨hn, by omega, hl0, hl1, hg, ha, hα1, hα2, ?_, ?_⟩
        · rw [← hk0]
          simp [finalValueCore]
        · rw [← hk1]
          simp [finalValueCore]

/-- A well-formed key of positive depth evaluates successfully on every
in-range input, and the result is congruent modulo the group order to the
exact-sum evaluation. -/
theorem evaluate_ok_of (d : DCFScheme) (ks : Bytes → Nat → Nat) (key : DCFKey)
    (x : Int) (nn : Nat) (hcw : key.CWs.length = nn) (hnn : 1 ≤ nn) (h63 : nn ≤ 63)
    (hg : groupOK d) (ha : aesOK d) (hseed : key.Seed.length = d.lambdaInBytes)
    (hcws : ∀ cw ∈ key.CWs, cw.Seed.length = d.lambdaInBytes)
    (hx1 : -(2 ^ (nn - 1) : Int) ≤ x) (hx2 : x < 2 ^ (nn - 1)) :
    ∃ y, Evaluate d ks key x = some (Except.ok y) ∧
      y % d.groupOrder =
        evalFinalNM d (Int.tmod key.Party 2 == 1) key.FinalValue
          (evalLevelsNM d ks (Int.tmod key.Party 2 == 1)
            ((msbBits nn (x + 2 ^ (nn - 1)).toNat).zip key.CWs)
            ⟨key.Seed, (key.Party % 256).toNat, 0⟩) % d.groupOrder := by
  have hT : wrap64 ((2:Int) ^ (nn - 1)) = 2 ^ (nn - 1) := wrap64_pow_small _ (by omega)
  have hrange : ¬ (x ≥ (2:Int) ^ (nn - 1) ∨ x < -(2:Int) ^ (nn - 1)) := by
    push_neg
    exact ⟨not_le.mp (fun hc => absurd hx2 (not_lt.mpr hc)), hx1⟩
  obtain ⟨v', hrun, hv'⟩ := evalLevels_NM d ks (Int.tmod key.Party 2 == 1)
    ((msbBits nn (x + 2 ^ (nn - 1)).toNat).zip key.CWs) key.Seed
    ((key.Party % 256).toNat) 0 0 hseed
    (fun p hp => by
      rcases p with ⟨b, cw⟩
      exact le_of_eq (hcws cw (List.mem_zip hp).2).symm) hg ha rfl
  have hslen : (evalLevelsNM d ks (Int.tmod key.Party 2 == 1)
      ((msbBits nn (x + 2 ^ (nn - 1)).toNat).zip key.CWs)
      ⟨key.Seed, (key.Party % 256).toNat, 0⟩).s.length = d.lambdaInBytes :=
    evalLevelsNM_final_s_length d ks _ _ _ hseed
      (fun p hp => by
        rcases p with ⟨b, cw⟩
        exact le_of_eq (hcws cw (List.mem_zip hp).2).symm)
  unfold Evaluate
  rw [if_neg (by omega : ¬ key.CWs.length = 0)]
  dsimp only
  rw [hcw, hT, if_neg hrange, hrun, except_bind_ok,
    mapToGroupElement_ok d _ hslen hg, except_bind_ok]
  refine ⟨_, rfl, ?_⟩
  rw [Int.emod_emod_of_dvd _ dvd_rfl, Int.add_emod v', hv', ← Int.add_emod]
  rw [evalFinalNM]

/-- Correctness core shared by the DCF and DDCF claims: a successful key
generation yields keys whose evaluations at any in-range x succeed and
sum, modulo the group order, to β when x < α and to 0 otherwise. -/
theorem dcf_sum (d : DCFScheme) (ks : Bytes → Nat → Nat) (s0 s1 : Bytes)
    (n alpha beta x : Int) (k0 k1 : DCFKey)
    (hgen : GenerateKeys d ks s0 s1 n alpha beta = some (Except.ok (k0, k1)))
    (hx1 : -(2 ^ (n.toNat - 1) : Int) ≤ x) (hx2 : x < 2 ^ (n.toNat - 1)) :
    ∃ y0 y1, Evaluate d ks k0 x = some (Except.ok y0) ∧
      Evaluate d ks k1 x = some (Except.ok y1) ∧
      (y0 + y1) % d.groupOrder = (if x < alpha then beta else 0) % d.groupOrder := by
  obtain ⟨hn, h63, hl0, hl1, hg, ha, hα1, hα2, hk0, hk1⟩ :=
    generateKeys_ok_inv d ks s0 s1 n alpha beta k0 k1 hgen
  set nn := n.toNat with hnn
  set aM := (alpha + 2 ^ (nn - 1)).toNat with haM
  set xM := (x + 2 ^ (nn - 1)).toNat with hxM
  set core := genLevelsCore d ks beta (msbBits nn aM) ⟨s0, s1, 0, 1, 0⟩ with hcoredef
  have hcwlen : core.2.length = nn := by
    rw [hcoredef, genLevelsCore_cws_length]
    exact msbBits_length nn aM
  have hcws : ∀ cw ∈ core.2, cw.Seed.length = d.lambdaInBytes :=
    genLevelsCore_cw_lengths d ks beta (msbBits nn aM) ⟨s0, s1, 0, 1, 0⟩
  have hnn1 : 1 ≤ nn := by omega
  obtain ⟨y0, he0, hy0⟩ := evaluate_ok_of d ks k0 x nn (by rw [hk0]; exact hcwlen) hnn1 h63
    hg ha (by rw [hk0]; exact hl0) (by rw [hk0]; exact hcws) hx1 hx2
  obtain ⟨y1, he1, hy1⟩ := evaluate_ok_of d ks k1 x nn (by rw [hk1]; exact hcwlen) hnn1 h63
    hg ha (by rw [hk1]; exact hl1) (by rw [hk1]; exact hcws) hx1 hx2
  refine ⟨y0, y1, he0, he1, ?_⟩
  rw [hk0] at hy0
  rw [hk1] at hy1
  have c0 : (Int.tmod (0:Int) 2 == 1) = false := rfl
  have c1 : (Int.tmod (1:Int) 2 == 1) = true := rfl
  have c2 : (((0:Int)) % 256).toNat = 0 := rfl
  have c3 : (((1:Int)) % 256).toNat = 1 := rfl
  simp only [c0, c1, c2, c3] at hy0 hy1
  have hmain := genLevelsCore_eval_sum d ks beta (msbBits nn aM) (msbBits nn xM)
    ⟨s0, s1, 0, 1, 0⟩ (by rw [msbBits_length, msbBits_length])
    (msbBits_lt_two nn aM) (msbBits_lt_two nn xM) (by norm_num) (by norm_num) (by simp)
  have h2 : ((2:Int) ^ (nn - 1)) + 2 ^ (nn - 1) = 2 ^ nn := by
    have hh : (2:Int) ^ nn = 2 ^ (nn - 1) * 2 := by
      rw [← pow_succ]
      congr 1
      omega
    rw [hh]
    ring
  have hcast : ((2 ^ nn : Nat) : Int) = 2 ^ nn := by push_cast; ring
  have hxM' : xM < 2 ^ nn := by omega
  have haM' : aM < 2 ^ nn := by omega
  rw [Int.add_emod y0 y1, hy0, hy1, ← Int.add_emod, hmain,
    lexInd_msbBits nn xM aM hxM' haM']
  have hcmp : (xM < aM) ↔ (x < alpha) := by omega
  by_cases hc : x < alpha
  · rw [if_pos hc, if_pos (hcmp.mpr hc)]
    norm_num
  · rw [if_neg hc, if_neg (fun hcc => hc (hcmp.mp hcc))]
    norm_num

theorem reconstruct_two (d : DCFScheme) (y0 y1 : Int) :
    Reconstruct d [y0, y1] = (y0 + y1) % d.groupOrder := by
  show ((0 + y0) % d.groupOrder + y1) % d.groupOrder = _
  rw [zero_add, Int.add_emod (y0 % d.groupOrder) y1, Int.emod_emod_of_dvd _ dvd_rfl,
    ← Int.add_emod]

theorem emod_add_collapse (N a b : Int) : (a % N + b % N) % N = (a + b) % N := by
  rw [← Int.add_emod]

theorem add_emod_right_collapse (N a b : Int) : (a + b % N) % N = (a + b) % N := by
  rw [Int.add_emod a (b % N), Int.emod_emod_of_dvd _ dvd_rfl, ← Int.add_emod]

/-- C1: for every domain width n in [1,16], every α and x in
[−2^(n−1), 2^(n−1)−1] and every β, if `GenerateKeys` returns a key pair
without error then `Reconstruct` applied to the two evaluations at x
yields β modulo the group order when x < α, and 0 otherwise; the
comparison is strict, so at x = α the reconstructed value is 0. -/
theorem dcf_reconstruct_correct (d : DCFScheme) (ks : Bytes → Nat → Nat)
    (s0 s1 : Bytes) (n alpha beta x : Int) (k0 k1 : DCFKey)
    (hn1 : 1 ≤ n) (hn16 : n ≤ 16)
    (hα1 : -(2 ^ (n.toNat - 1) : Int) ≤ alpha) (hα2 : alpha < 2 ^ (n.toNat - 1))
    (hx1 : -(2 ^ (n.toNat - 1) : Int) ≤ x) (hx2 : x < 2 ^ (n.toNat - 1))
    (hgen : GenerateKeys d ks s0 s1 n alpha beta = some (Except.ok (k0, k1))) :
    ∃ y0 y1, Evaluate d ks k0 x = some (Except.ok y0) ∧
      Evaluate d ks k1 x = some (Except.ok y1) ∧
      Reconstruct d [y0, y1] = (if x < alpha then beta else 0) % d.groupOrder := by
  obtain ⟨y0, y1, he0, he1, hsum⟩ := dcf_sum d ks s0 s1 n alpha beta x k0 k1 hgen hx1 hx2
  exact ⟨y0, y1, he0, he1, by rw [reconstruct_two, hsum]⟩

/-! ### Power-of-two characterization and remainder congruences -/

theorem testBit_of_le_of_lt (m k : Nat) (h1 : 2 ^ k ≤ m) (h2 : m < 2 ^ (k + 1)) :
    m.testBit k = true := by
  rw [Nat.testBit_to_div_mod]
  have hdiv : m / 2 ^ k = 1 := by
    apply Nat.div_eq_of_lt_le
    · omega
    · rw [pow_succ] at h2
      omega
  rw [hdiv]
  decide

theorem land_pred_eq_zero_pow (n : Nat) (hpos : 0 < n) (h : n &&& (n - 1) = 0) :
    ∃ k, n = 2 ^ k := by
  refine ⟨Nat.log 2 n, ?_⟩
  have hle : 2 ^ Nat.log 2 n ≤ n := Nat.pow_log_le_self 2 (by omega)
  have hlt : n < 2 ^ (Nat.log 2 n + 1) := Nat.lt_pow_succ_log_self (by norm_num) n
  by_contra hne
  have hn1 : 2 ^ Nat.log 2 n + 1 ≤ n := by omega
  have hb1 : n.testBit (Nat.log 2 n) = true := testBit_of_le_of_lt n _ hle hlt
  have hb2 : (n - 1).testBit (Nat.log 2 n) = true :=
    testBit_of_le_of_lt (n - 1) _ (by omega) (by omega)
  have := Nat.testBit_land n (n - 1) (Nat.log 2 n)
  rw [h, hb1, hb2, Nat.zero_testBit] at this
  simp at this

theorem isPowerOfTwo_exists (N : Int) (h : isPowerOfTwo N = true) :
    0 < N ∧ ∃ k, N = 2 ^ k := by
  unfold isPowerOfTwo at h
  split at h
  · cases h
  next hpos =>
    have hpos' : 0 < N := by omega
    refine ⟨hpos', ?_⟩
    have hland : N.natAbs &&& (N.natAbs - 1) = 0 := by
      simpa using h
    obtain ⟨k, hk⟩ := land_pred_eq_zero_pow N.natAbs (by omega) hland
    refine ⟨k, ?_⟩
    have : N = (N.natAbs : Int) := (Int.natAbs_of_nonneg (le_of_lt hpos')).symm
    rw [this, hk]
    push_cast
    ring

theorem tmod_emod (a b : Int) : Int.tmod a b % b = a % b := by
  calc Int.tmod a b % b = (Int.tmod a b + b * Int.tdiv a b) % b := by
        rw [Int.add_mul_emod_self_left (Int.tmod a b) b (Int.tdiv a b)]
    _ = a % b := by rw [add_comm, Int.tdiv_add_tmod]

theorem wrap64_emod (z N : Int) (hdvd : N ∣ 2 ^ 64) : wrap64 z % N = z % N := by
  unfold wrap64
  calc ((z + 2 ^ 63) % 2 ^ 64 - 2 ^ 63) % N
      = ((z + 2 ^ 63) % 2 ^ 64 % N - (2:Int) ^ 63 % N) % N := by rw [← Int.sub_emod]
    _ = ((z + 2 ^ 63) % N - (2:Int) ^ 63 % N) % N := by
        rw [Int.emod_emod_of_dvd _ hdvd]
    _ = ((z + 2 ^ 63) - 2 ^ 63) % N := by rw [← Int.sub_emod]
    _ = z % N := by norm_num

theorem wrap64_eq_self (z : Int) (h1 : -(2 ^ 63) ≤ z) (h2 : z < 2 ^ 63) :
    wrap64 z = z := by
  have hb : (2:Int) ^ 63 + 2 ^ 63 = 2 ^ 64 := by norm_num
  unfold wrap64
  rw [Int.emod_eq_of_lt (by linarith) (by linarith)]
  ring

/-- C2: for every n ≥ 1, every α and x in [−2^(n−1), 2^(n−1)−1] and all
β₀, β₁ (with a group order below 2^63, so that the Go int64 view of the
order used by the δ computation is exact), a successful
`GenerateDDCFKeys` yields keys whose evaluations reconstruct to β₀
modulo the group order when x < α and to β₁ when x ≥ α. -/
theorem ddcf_reconstruct_correct (d : DCFScheme) (ks : Bytes → Nat → Nat)
    (s0 s1 : Bytes) (s0Share : Int) (n alpha beta0 beta1 x : Int) (dk0 dk1 : DDCFKey)
    (hN : d.groupOrder < 2 ^ 63) (hn1 : 1 ≤ n)
    (hα1 : -(2 ^ (n.toNat - 1) : Int) ≤ alpha) (hα2 : alpha < 2 ^ (n.toNat - 1))
    (hx1 : -(2 ^ (n.toNat - 1) : Int) ≤ x) (hx2 : x < 2 ^ (n.toNat - 1))
    (hgen : GenerateDDCFKeys d ks s0 s1 s0Share n alpha beta0 beta1 =
      some (Except.ok (dk0, dk1))) :
    ∃ y0 y1, EvaluateDDCF d ks dk0 x = some (Except.ok y0) ∧
      EvaluateDDCF d ks dk1 x = some (Except.ok y1) ∧
      Reconstruct d [y0, y1] = (if x < alpha then beta0 else beta1) % d.groupOrder := by
  unfold GenerateDDCFKeys at hgen
  split at hgen
  · simp at hgen
  next hz =>
    dsimp only at hgen
    cases hK : GenerateKeys d ks s0 s1 n alpha (betaDiffGo d beta0 beta1) with
    | none => rw [hK] at hgen; simp at hgen
    | some r =>
      rw [hK] at hgen
      cases r with
      | error e => simp at hgen
      | ok p =>
        rcases p with ⟨key0, key1⟩
        simp only [Option.some.injEq, Except.ok.injEq, Prod.mk.injEq] at hgen
        obtain ⟨hdk0, hdk1⟩ := hgen
        obtain ⟨-, -, -, -, hg, -, -, -, -⟩ :=
          generateKeys_ok_inv d ks s0 s1 n alpha (betaDiffGo d beta0 beta1) key0 key1 hK
        obtain ⟨hNpos, k, hNk⟩ := isPowerOfTwo_exists d.groupOrder hg.1
        have hk63 : k < 63 := by
          by_contra hc
          have hle : (2:Int) ^ 63 ≤ 2 ^ k := pow_le_pow_right (by norm_num) (by omega)
          rw [hNk] at hN
          omega
        have hdvd : d.groupOrder ∣ 2 ^ 64 := by
          rw [hNk]
          exact pow_dvd_pow 2 (by omega)
        have hgo : goInt64 d.groupOrder = d.groupOrder := by
          unfold goInt64
          exact wrap64_eq_self d.groupOrder (by linarith) hN
        have hδ : betaDiffGo d beta0 beta1 % d.groupOrder =
            (beta0 - beta1) % d.groupOrder := by
          unfold betaDiffGo
          rw [hgo, tmod_emod, wrap64_emod _ _ hdvd]
        obtain ⟨y0', y1', he0, he1, hsum⟩ := dcf_sum d ks s0 s1 n alpha
          (betaDiffGo d beta0 beta1) x key0 key1 hK hx1 hx2
        refine ⟨(y0' + s0Share) % d.groupOrder,
          (y1' + (beta1 - s0Share) % d.groupOrder) % d.groupOrder, ?_, ?_, ?_⟩
        · rw [← hdk0]
          simp [EvaluateDDCF, he0]
        · rw [← hdk1]
          simp [EvaluateDDCF, he1]
        · rw [reconstruct_two, emod_add_collapse]
          have hre : y0' + s0Share + (y1' + (beta1 - s0Share) % d.groupOrder) =
              (y0' + s0Share + y1') + (beta1 - s0Share) % d.groupOrder := by ring
          rw [hre, add_emod_right_collapse]
          have hre2 : y0' + s0Share + y1' + (beta1 - s0Share) = y0' + y1' + beta1 := by
            ring
          rw [hre2, Int.add_emod (y0' + y1') beta1, hsum, ← Int.add_emod]
          by_cases hc : x < alpha
          · rw [if_pos hc, if_pos hc, Int.add_emod, hδ, ← Int.add_emod]
            have hre3 : beta0 - beta1 + beta1 = beta0 := by ring
            rw [hre3]
          · rw [if_neg hc, if_neg hc]
            norm_num

/-- Witness for C1: a concrete scheme (λ = 128 bits, N = 2^3), a zero
keystream, zero 16-byte seeds, n = 2, α = 1, β = 1, x = 0; the
reconstruction is 1 mod 8. -/
theorem dcf_reconstruct_correct_witness :
    ((1:Int) ≤ 2 ∧ (2:Int) ≤ 16 ∧
      -((2:Int) ^ ((2:Int).toNat - 1)) ≤ 1 ∧ (1:Int) < 2 ^ ((2:Int).toNat - 1) ∧
      -((2:Int) ^ ((2:Int).toNat - 1)) ≤ 0 ∧ (0:Int) < 2 ^ ((2:Int).toNat - 1) ∧
      GenerateKeys (NewDCFScheme 128 8) (fun _ _ => 0)
          (List.replicate 16 0) (List.replicate 16 0) 2 1 1 =
        some (Except.ok
          (⟨0, List.replicate 16 0,
            [⟨List.replicate 16 0, -1, (0, 1)⟩, ⟨List.replicate 16 0, 0, (0, 1)⟩], 1⟩,
            ⟨1, List.replicate 16 0,
              [⟨List.replicate 16 0, -1, (0, 1)⟩, ⟨List.replicate 16 0, 0, (0, 1)⟩], 1⟩))) ∧
    (∃ y0 y1,
      Evaluate (NewDCFScheme 128 8) (fun _ _ => 0)
        ⟨0, List.replicate 16 0,
          [⟨List.replicate 16 0, -1, (0, 1)⟩, ⟨List.replicate 16 0, 0, (0, 1)⟩], 1⟩ 0 =
          some (Except.ok y0) ∧
      Evaluate (NewDCFScheme 128 8) (fun _ _ => 0)
        ⟨1, List.replicate 16 0,
          [⟨List.replicate 16 0, -1, (0, 1)⟩, ⟨List.replicate 16 0, 0, (0, 1)⟩], 1⟩ 0 =
          some (Except.ok y1) ∧
      Reconstruct (NewDCFScheme 128 8) [y0, y1] =
        (if (0:Int) < 1 then (1:Int) else 0) % (NewDCFScheme 128 8).groupOrder) :=
  ⟨⟨by decide, by decide, by decide, by decide, by decide, by decide, by decide⟩,
    dcf_reconstruct_correct (NewDCFScheme 128 8) (fun _ _ => 0)
      (List.replicate 16 0) (List.replicate 16 0) 2 1 1 0 _ _
      (by decide) (by decide) (by decide) (by decide) (by decide) (by decide) (by decide)⟩

/-- Witness for C2: the same concrete scheme, n = 3, α = 2, β₀ = 7,
β₁ = 3, x = 0; the reconstruction is 7 mod 8. -/
theorem ddcf_reconstruct_correct_witness :
    ((NewDCFScheme 128 8).groupOrder < 2 ^ 63 ∧ (1:Int) ≤ 3 ∧
      -((2:Int) ^ ((3:Int).toNat - 1)) ≤ 2 ∧ (2:Int) < 2 ^ ((3:Int).toNat - 1) ∧
      -((2:Int) ^ ((3:Int).toNat - 1)) ≤ 0 ∧ (0:Int) < 2 ^ ((3:Int).toNat - 1) ∧
      GenerateDDCFKeys (NewDCFScheme 128 8) (fun _ _ => 0)
          (List.replicate 16 0) (List.replicate 16 0) 2 3 2 7 3 =
        some (Except.ok
          (⟨⟨0, List.replicate 16 0,
            [⟨List.replicate 16 0, -4, (0, 1)⟩, ⟨List.replicate 16 0, 0, (0, 1)⟩,
              ⟨List.replicate 16 0, 4, (1, 0)⟩], 0⟩, 2⟩,
            ⟨⟨1, List.replicate 16 0,
              [⟨List.replicate 16 0, -4, (0, 1)⟩, ⟨List.replicate 16 0, 0, (0, 1)⟩,
                ⟨List.replicate 16 0, 4, (1, 0)⟩], 0⟩, 1⟩))) ∧
    (∃ y0 y1,
      EvaluateDDCF (NewDCFScheme 128 8) (fun _ _ => 0)
        ⟨⟨0, List.replicate 16 0,
          [⟨List.replicate 16 0, -4, (0, 1)⟩, ⟨List.replicate 16 0, 0, (0, 1)⟩,
            ⟨List.replicate 16 0, 4, (1, 0)⟩], 0⟩, 2⟩ 0 =
          some (Except.ok y0) ∧
      EvaluateDDCF (NewDCFScheme 128 8) (fun _ _ => 0)
        ⟨⟨1, List.replicate 16 0,
          [⟨List.replicate 16 0, -4, (0, 1)⟩, ⟨List.replicate 16 0, 0, (0, 1)⟩,
            ⟨List.replicate 16 0, 4, (1, 0)⟩], 0⟩, 1⟩ 0 =
          some (Except.ok y1) ∧
      Reconstruct (NewDCFScheme 128 8) [y0, y1] =
        (if (0:Int) < 2 then (7:Int) else 3) % (NewDCFScheme 128 8).groupOrder) :=
  ⟨⟨by decide, by decide, by decide, by decide, by decide, by decide, by decide⟩,
    ddcf_reconstruct_correct (NewDCFScheme 128 8) (fun _ _ => 0)
      (List.replicate 16 0) (List.replicate 16 0) 2 3 2 7 3 0 _ _
      (by decide) (by decide) (by decide) (by decide) (by decide) (by decide) (by decide)⟩

theorem tmod_neg_arg (a b : Int) : Int.tmod (-a) b = -Int.tmod a b := by
  have h1 := Int.tdiv_add_tmod a b
  have h2 := Int.tdiv_add_tmod (-a) b
  rw [Int.neg_tdiv] at h2
  linarith

theorem tmod_neg_of_neg_not_dvd (z N : Int) (hN : 0 < N) (hz : z < 0)
    (hdvd : ¬ N ∣ z) : Int.tmod z N < 0 := by
  have hrw : Int.tmod z N = -Int.tmod (-z) N := by
    rw [← tmod_neg_arg, neg_neg]
  rw [hrw, Int.tmod_eq_emod (by omega) (le_of_lt hN)]
  have hnn : 0 ≤ -z % N := Int.emod_nonneg _ (by omega)
  have hne : -z % N ≠ 0 := by
    intro hc
    exact hdvd ((Int.dvd_neg).mp (Int.dvd_of_emod_eq_zero hc))
  omega

/-- C3 (corrected): the δ that `GenerateDDCFKeys` passes to the DCF key
generation, `betaDiffGo`, is the Go truncated remainder of β₀ − β₁ by
the group order (the hypotheses keep the 64-bit views of the difference
and of the order exact): it is congruent to β₀ − β₁ modulo the order and
lies strictly between −N and N, and it is nonnegative when β₀ ≥ β₁; but
when β₀ < β₁ and the order does not divide β₀ − β₁ it is negative, not
the canonical nonnegative representative the spec requires. -/
theorem betaDiffGo_characterization (d : DCFScheme) (beta0 beta1 : Int)
    (hN1 : 0 < d.groupOrder) (hN2 : d.groupOrder < 2 ^ 63)
    (hd1 : -(2 ^ 63) ≤ beta0 - beta1) (hd2 : beta0 - beta1 < 2 ^ 63) :
    betaDiffGo d beta0 beta1 % d.groupOrder = (beta0 - beta1) % d.groupOrder ∧
    -d.groupOrder < betaDiffGo d beta0 beta1 ∧
    betaDiffGo d beta0 beta1 < d.groupOrder ∧
    (beta1 ≤ beta0 → 0 ≤ betaDiffGo d beta0 beta1) ∧
    (beta0 < beta1 → ¬ d.groupOrder ∣ (beta0 - beta1) →
      betaDiffGo d beta0 beta1 < 0) := by
  have hb : betaDiffGo d beta0 beta1 = Int.tmod (beta0 - beta1) d.groupOrder := by
    unfold betaDiffGo goInt64
    rw [wrap64_eq_self _ hd1 hd2, wrap64_eq_self _ (by omega) hN2]
  rw [hb]
  refine ⟨tmod_emod _ _, ?_, Int.tmod_lt_of_pos _ hN1, ?_, ?_⟩
  · rcases le_or_lt 0 (beta0 - beta1) with h | h
    · have := Int.tmod_nonneg d.groupOrder h
      omega
    · have hrw : Int.tmod (beta0 - beta1) d.groupOrder =
          -Int.tmod (-(beta0 - beta1)) d.groupOrder := by
        rw [← tmod_neg_arg, neg_neg]
      have := Int.tmod_lt_of_pos (-(beta0 - beta1)) hN1
      omega
  · intro h
    exact Int.tmod_nonneg d.groupOrder (by omega)
  · intro h hdvd
    exact tmod_neg_of_neg_not_dvd _ _ hN1 (by omega) hdvd

/-- Witness for C3's corrected statement: N = 2^16, β₀ = 3, β₁ = 7 gives
δ = −4, congruent to −4 ≡ 65532 (mod N) and strictly between −N and N. -/
theorem betaDiffGo_characterization_witness :
    ((0:Int) < (NewDCFScheme 128 (2 ^ 16)).groupOrder ∧
      (NewDCFScheme 128 (2 ^ 16)).groupOrder < 2 ^ 63 ∧
      -((2:Int) ^ 63) ≤ 3 - 7 ∧ (3 - 7 : Int) < 2 ^ 63) ∧
    (betaDiffGo (NewDCFScheme 128 (2 ^ 16)) 3 7 %
        (NewDCFScheme 128 (2 ^ 16)).groupOrder =
      (3 - 7 : Int) % (NewDCFScheme 128 (2 ^ 16)).groupOrder ∧
    -(NewDCFScheme 128 (2 ^ 16)).groupOrder < betaDiffGo (NewDCFScheme 128 (2 ^ 16)) 3 7 ∧
    betaDiffGo (NewDCFScheme 128 (2 ^ 16)) 3 7 < (NewDCFScheme 128 (2 ^ 16)).groupOrder ∧
    ((7:Int) ≤ 3 → 0 ≤ betaDiffGo (NewDCFScheme 128 (2 ^ 16)) 3 7) ∧
    ((3:Int) < 7 → ¬ (NewDCFScheme 128 (2 ^ 16)).groupOrder ∣ (3 - 7 : Int) →
      betaDiffGo (NewDCFScheme 128 (2 ^ 16)) 3 7 < 0)) :=
  ⟨⟨by decide, by decide, by decide, by decide⟩,
    betaDiffGo_characterization (NewDCFScheme 128 (2 ^ 16)) 3 7
      (by decide) (by decide) (by decide) (by decide)⟩

/-- Counterexample to C3 as stated: with N = 2^16, β₀ = 3 and β₁ = 7,
the δ computed by `GenerateDDCFKeys` is −4, which is negative and is not
the canonical nonnegative representative 65532 of (β₀ − β₁) mod N. -/
theorem betaDiffGo_not_canonical :
    betaDiffGo (NewDCFScheme 128 (2 ^ 16)) 3 7 = -4 ∧
    ¬ 0 ≤ betaDiffGo (NewDCFScheme 128 (2 ^ 16)) 3 7 ∧
    (3 - 7 : Int) % (NewDCFScheme 128 (2 ^ 16)).groupOrder = 65532 := by
  refine ⟨by decide, by decide, by decide⟩

theorem size_succ_div2 (n : Nat) : (n + 1).size = ((n + 1) / 2).size + 1 := by
  have h1 : n + 1 < 2 ^ (((n + 1) / 2).size + 1) := by
    have := Nat.lt_size_self ((n + 1) / 2)
    rw [pow_succ]
    omega
  have h2 : 2 ^ ((n + 1) / 2).size ≤ n + 1 := by
    rcases Nat.eq_zero_or_pos ((n + 1) / 2).size with h | h
    · rw [h]; omega
    · obtain ⟨t, ht⟩ := Nat.exists_eq_succ_of_ne_zero (Nat.pos_iff_ne_zero.mp h)
      have hts : 2 ^ t ≤ (n + 1) / 2 := Nat.lt_size.mp (by omega)
      rw [ht, pow_succ]
      omega
  have hle : (n + 1).size ≤ ((n + 1) / 2).size + 1 := Nat.size_le.mpr h1
  have hge : ((n + 1) / 2).size < (n + 1).size := Nat.lt_size.mpr h2
  omega

theorem bitLenAux_eq_size (fuel n : Nat) (h : n ≤ fuel) :
    bitLenAux fuel n = Nat.size n := by
  induction fuel generalizing n with
  | zero =>
    have hn : n = 0 := by omega
    subst hn
    simp [bitLenAux, Nat.size_zero]
  | succ fuel ih =>
    cases n with
    | zero => simp [bitLenAux, Nat.size_zero]
    | succ m =>
      simp only [bitLenAux]
      rw [ih ((m + 1) / 2) (by omega)]
      exact (size_succ_div2 m).symm

theorem bitLen_eq_size (n : Nat) : bitLen n = Nat.size n :=
  bitLenAux_eq_size n n le_rfl

theorem natAbs_two_pow (k : Nat) : ((2:Int) ^ k).natAbs = 2 ^ k := by
  rw [Int.natAbs_pow]
  norm_num

theorem groupK_pow (d : DCFScheme) (k : Nat) (hN : d.groupOrder = (2:Int) ^ k) :
    d.groupK = k := by
  unfold DCFScheme.groupK
  rw [hN, natAbs_two_pow, bitLen_eq_size, Nat.size_pow]
  omega

theorem isPowerOfTwo_pow (k : Nat) : isPowerOfTwo ((2:Int) ^ k) = true := by
  unfold isPowerOfTwo
  rw [if_neg (not_le.mpr (by positivity)), natAbs_two_pow]
  have hz : 2 ^ k &&& (2 ^ k - 1) = 0 := by
    apply Nat.eq_of_testBit_eq
    intro i
    rw [Nat.testBit_land, Nat.testBit_two_pow, Nat.testBit_two_pow_sub_one]
    rcases eq_or_ne k i with rfl | h
    · simp
    · simp [h]
  rw [hz]
  rfl

theorem foldl_bytes_acc (l : Bytes) (acc : Nat) :
    l.foldl (fun a b => a * 256 + b) acc =
      acc * 256 ^ l.length + l.foldl (fun a b => a * 256 + b) 0 := by
  induction l generalizing acc with
  | nil => simp
  | cons x xs ih =>
    simp only [List.foldl_cons, List.length_cons]
    rw [ih (acc * 256 + x), ih (0 * 256 + x)]
    ring

theorem bytesToNat_cons (x : Nat) (xs : Bytes) :
    bytesToNat (x :: xs) = x * 256 ^ xs.length + bytesToNat xs := by
  unfold bytesToNat
  simp only [List.foldl_cons]
  rw [foldl_bytes_acc xs (0 * 256 + x)]
  ring

theorem bytesToNat_lt (l : Bytes) (h : ∀ b ∈ l, b < 256) :
    bytesToNat l < 256 ^ l.length := by
  induction l with
  | nil => simp [bytesToNat]
  | cons x xs ih =>
    rw [bytesToNat_cons, List.length_cons]
    have hx : x < 256 := h x (List.mem_cons_self _ _)
    have hxs := ih (fun b hb => h b (List.mem_cons_of_mem _ hb))
    calc x * 256 ^ xs.length + bytesToNat xs
        < x * 256 ^ xs.length + 256 ^ xs.length := by omega
      _ = (x + 1) * 256 ^ xs.length := by ring
      _ ≤ 256 * 256 ^ xs.length := Nat.mul_le_mul_right _ (by omega)
      _ = 256 ^ (xs.length + 1) := by ring

/-- C4: for a scheme whose group order is 2^k with k ≤ λ bits (λ a whole
number of bytes) and an input block of exactly λ/8 bytes of genuine
bytes, `mapToGroupElement` succeeds and returns the first ⌈k/8⌉ bytes of
the block read as a big-endian integer and shifted right by
8⌈k/8⌉ − k; the result lies in [0, N); and for k ≥ 1 its most
significant bit (bit k−1) is the most significant bit (bit 7) of the
block's first byte. -/
theorem mapToGroupElement_spec (d : DCFScheme) (input : Bytes) (k : Nat)
    (hN : d.groupOrder = (2:Int) ^ k)
    (hkl : k ≤ d.lambdaInBits)
    (h8 : 8 ∣ d.lambdaInBits)
    (hlen : input.length = d.lambdaInBits / 8)
    (hbytes : ∀ b ∈ input, b < 256) :
    mapToGroupElement d input =
      .ok ((bytesToNat (input.take ((k + 7) / 8)) >>>
        ((k + 7) / 8 * 8 - k) : Nat)) ∧
    0 ≤ mapToGroupElementCore d input ∧
    mapToGroupElementCore d input < d.groupOrder ∧
    (1 ≤ k →
      (bytesToNat (input.take ((k + 7) / 8)) >>> ((k + 7) / 8 * 8 - k)) >>>
          (k - 1) =
        input.headD 0 >>> 7) := by
  obtain ⟨lam, hlam⟩ := h8
  have hk := groupK_pow d k hN
  have hpow : isPowerOfTwo d.groupOrder = true := by
    rw [hN]; exact isPowerOfTwo_pow k
  have hBle : (k + 7) / 8 ≤ input.length := by
    rw [hlen, hlam]; omega
  have hcore : mapToGroupElementCore d input =
      ((bytesToNat (input.take ((k + 7) / 8)) >>>
        ((k + 7) / 8 * 8 - k) : Nat) : Int) := by
    unfold mapToGroupElementCore
    rw [hk]
  have htakelen : (input.take ((k + 7) / 8)).length = (k + 7) / 8 :=
    List.length_take_of_le hBle
  have hm : bytesToNat (input.take ((k + 7) / 8)) < 2 ^ ((k + 7) / 8 * 8) := by
    have := bytesToNat_lt (input.take ((k + 7) / 8))
      (fun b hb => hbytes b (List.mem_of_mem_take hb))
    rw [htakelen] at this
    calc bytesToNat (input.take ((k + 7) / 8)) < 256 ^ ((k + 7) / 8) := this
      _ = 2 ^ ((k + 7) / 8 * 8) := by
          rw [show (256:Nat) = 2 ^ 8 by norm_num, ← pow_mul, Nat.mul_comm]
  have hrange : bytesToNat (input.take ((k + 7) / 8)) >>>
      ((k + 7) / 8 * 8 - k) < 2 ^ k := by
    rw [Nat.shiftRight_eq_div_pow]
    apply Nat.div_lt_of_lt_mul
    calc bytesToNat (input.take ((k + 7) / 8)) < 2 ^ ((k + 7) / 8 * 8) := hm
      _ = 2 ^ ((k + 7) / 8 * 8 - k) * 2 ^ k := by
          rw [← pow_add]
          congr 1
          omega
  refine ⟨?_, ?_, ?_, ?_⟩
  · rw [mapToGroupElement_ok d input (by rw [hlen]; rfl)
      ⟨hpow, by omega, by rw [hk]; unfold DCFScheme.lambdaInBytes; rw [hlam]; omega⟩,
      hcore]
  · rw [hcore]; positivity
  · rw [hcore, hN]
    exact_mod_cast hrange
  · intro hk1
    have hB1 : 1 ≤ (k + 7) / 8 := by omega
    rcases hinp : input with _ | ⟨b0, tail⟩
    · rw [hinp] at hBle; simp at hBle; omega
    · have htake : List.take ((k + 7) / 8) (b0 :: tail) =
          b0 :: tail.take ((k + 7) / 8 - 1) := by
        obtain ⟨B', hB'⟩ := Nat.exists_eq_succ_of_ne_zero
          (show (k + 7) / 8 ≠ 0 by omega)
        rw [hB']
        simp
      have hhead : (b0 :: tail).headD 0 = b0 := rfl
      rw [htake, hhead, bytesToNat_cons]
      have hrestlen : (tail.take ((k + 7) / 8 - 1)).length = (k + 7) / 8 - 1 := by
        apply List.length_take_of_le
        rw [hinp] at hBle
        simp at hBle
        omega
      have hmemtail : ∀ b ∈ tail.take ((k + 7) / 8 - 1), b < 256 := by
        intro b hb
        apply hbytes
        rw [hinp]
        exact List.mem_cons_of_mem _ (List.mem_of_mem_take hb)
      have hrest : bytesToNat (tail.take ((k + 7) / 8 - 1)) <
          2 ^ (((k + 7) / 8 - 1) * 8) := by
        have := bytesToNat_lt (tail.take ((k + 7) / 8 - 1)) hmemtail
        rw [hrestlen] at this
        calc bytesToNat (tail.take ((k + 7) / 8 - 1)) <
            256 ^ ((k + 7) / 8 - 1) := this
          _ = 2 ^ (((k + 7) / 8 - 1) * 8) := by
              rw [show (256:Nat) = 2 ^ 8 by norm_num, ← pow_mul, Nat.mul_comm]
    -- now compute the double shift as a division by 2 ^ (8B − 1)
      have hb0 : b0 < 256 := by
        apply hbytes; rw [hinp]; exact List.mem_cons_self _ _
      rw [Nat.shiftRight_eq_div_pow, Nat.shiftRight_eq_div_pow,
        Nat.shiftRight_eq_div_pow, Nat.div_div_eq_div_mul, ← pow_add]
      have hexp : (k + 7) / 8 * 8 - k + (k - 1) = (k + 7) / 8 * 8 - 1 := by
        omega
      rw [hexp]
      have hlen8 : (tail.take ((k + 7) / 8 - 1)).length =
        (k + 7) / 8 - 1 := hrestlen
      rw [hlen8]
      have hsplit : b0 * 256 ^ ((k + 7) / 8 - 1) +
          bytesToNat (tail.take ((k + 7) / 8 - 1)) =
          2 ^ ((k + 7) / 8 * 8 - 1) * (b0 / 128) +
            (b0 % 128 * 2 ^ (((k + 7) / 8 - 1) * 8) +
              bytesToNat (tail.take ((k + 7) / 8 - 1))) := by
        have h256 : (256:Nat) ^ ((k + 7) / 8 - 1) =
            2 ^ (((k + 7) / 8 - 1) * 8) := by
          rw [show (256:Nat) = 2 ^ 8 by norm_num, ← pow_mul, Nat.mul_comm]
        have hQ : 2 ^ ((k + 7) / 8 * 8 - 1) =
            128 * 2 ^ (((k + 7) / 8 - 1) * 8) := by
          rw [show (128:Nat) = 2 ^ 7 by norm_num, ← pow_add]
          congr 1
          omega
        rw [h256, hQ]
        have hb0d : b0 = 128 * (b0 / 128) + b0 % 128 := by omega
        calc b0 * 2 ^ (((k + 7) / 8 - 1) * 8) +
            bytesToNat (tail.take ((k + 7) / 8 - 1))
            = (128 * (b0 / 128) + b0 % 128) * 2 ^ (((k + 7) / 8 - 1) * 8) +
              bytesToNat (tail.take ((k + 7) / 8 - 1)) := by rw [← hb0d]
          _ = 128 * 2 ^ (((k + 7) / 8 - 1) * 8) * (b0 / 128) +
              (b0 % 128 * 2 ^ (((k + 7) / 8 - 1) * 8) +
                bytesToNat (tail.take ((k + 7) / 8 - 1))) := by ring
      rw [hsplit]
      have hwlt : b0 % 128 * 2 ^ (((k + 7) / 8 - 1) * 8) +
          bytesToNat (tail.take ((k + 7) / 8 - 1)) <
          2 ^ ((k + 7) / 8 * 8 - 1) := by
        have hQ : 2 ^ ((k + 7) / 8 * 8 - 1) =
            128 * 2 ^ (((k + 7) / 8 - 1) * 8) := by
          rw [show (128:Nat) = 2 ^ 7 by norm_num, ← pow_add]
          congr 1
          omega
        rw [hQ]
        have h1 : b0 % 128 ≤ 127 := by omega
        have h2 := hrest
        nlinarith [pow_pos (show 0 < 2 by norm_num) (((k + 7) / 8 - 1) * 8)]
      rw [Nat.mul_add_div (by positivity), Nat.div_eq_of_lt hwlt]
      have : b0 >>> 7 = b0 / 128 := by
        rw [Nat.shiftRight_eq_div_pow]
      omega

/-- Witness for C4: λ = 16 bits, N = 2^9, block [129, 66]; the map
returns (129·256 + 66) >> 7 = 258 < 512, whose bit 8 equals bit 7
of 129. -/
theorem mapToGroupElement_spec_witness :
    ((NewDCFScheme 16 512).groupOrder = 2 ^ 9 ∧ 9 ≤ (NewDCFScheme 16 512).lambdaInBits ∧
      8 ∣ (NewDCFScheme 16 512).lambdaInBits ∧
      ([129, 66] : Bytes).length = (NewDCFScheme 16 512).lambdaInBits / 8 ∧
      ∀ b ∈ ([129, 66] : Bytes), b < 256) ∧
    (mapToGroupElement (NewDCFScheme 16 512) [129, 66] =
      .ok ((bytesToNat (([129, 66] : Bytes).take ((9 + 7) / 8)) >>>
        ((9 + 7) / 8 * 8 - 9) : Nat)) ∧
    0 ≤ mapToGroupElementCore (NewDCFScheme 16 512) [129, 66] ∧
    mapToGroupElementCore (NewDCFScheme 16 512) [129, 66] <
      (NewDCFScheme 16 512).groupOrder ∧
    (1 ≤ 9 →
      (bytesToNat (([129, 66] : Bytes).take ((9 + 7) / 8)) >>>
        ((9 + 7) / 8 * 8 - 9)) >>> (9 - 1) =
        ([129, 66] : Bytes).headD 0 >>> 7)) :=
  ⟨⟨by decide, by decide, by decide, by decide, by decide⟩,
    mapToGroupElement_spec (NewDCFScheme 16 512) [129, 66] 9
      (by decide) (by decide) (by decide) (by decide) (by decide)⟩

theorem evalStep_convert_error (d : DCFScheme) (ks : Bytes → Nat → Nat)
    (negate : Bool) (st : EvalState) (b : Nat) (cw : DCFCorrectionWord) (e : GoError)
    (h0 : st.s.length = d.lambdaInBytes) (ha : aesOK d)
    (hC : ∀ input : Bytes, input.length = d.lambdaInBytes →
      mapToGroupElement d input = .error e) :
    evalStep d ks negate st b cw = .error e := by
  have e0 := expandDCFNode_ok d ks st.s h0 ha
  have c0 : mapToGroupElement d (if b = 0 then (expandDCFNodeCore d ks st.s).Values.1
      else (expandDCFNodeCore d ks st.s).Values.2) = .error e := by
    by_cases hb : b = 0
    · rw [if_pos hb]
      exact hC _ (expandDCFNodeCore_values_length d ks st.s false)
    · rw [if_neg hb]
      exact hC _ (expandDCFNodeCore_values_length d ks st.s true)
  simp only [evalStep, e0, except_bind_ok, c0, except_bind_error]

theorem generateKeys_badGroup (d : DCFScheme) (ks : Bytes → Nat → Nat)
    (s0 s1 : Bytes) (n alpha beta : Int)
    (hbad : ¬ (isPowerOfTwo d.groupOrder = true ∧ d.groupK ≤ d.lambdaInBits))
    (ha : aesOK d)
    (hl0 : s0.length = d.lambdaInBytes) (hl1 : s1.length = d.lambdaInBytes)
    (hn1 : 1 ≤ n) (hn63 : n ≤ 63)
    (hα1 : -(2 ^ (n.toNat - 1) : Int) ≤ alpha) (hα2 : alpha < 2 ^ (n.toNat - 1)) :
    GenerateKeys d ks s0 s1 n alpha beta = some (.error .UnsupportedGroup) := by
  unfold GenerateKeys
  rw [if_neg (show ¬ n - 1 < 0 by omega)]
  have hexp : (n - 1).toNat = n.toNat - 1 := by omega
  rw [hexp]
  dsimp only
  have hT : wrap64 ((2:Int) ^ (n.toNat - 1)) = 2 ^ (n.toNat - 1) :=
    wrap64_pow_small _ (by omega)
  rw [hT, if_neg (by push_neg; exact ⟨hα2, hα1⟩)]
  congr 1
  obtain ⟨m, hm⟩ : ∃ m, n.toNat = m + 1 := ⟨n.toNat - 1, by omega⟩
  rw [hm, msbBits_succ]
  have hC : ∀ input : Bytes, input.length = d.lambdaInBytes →
      mapToGroupElement d input = .error .UnsupportedGroup := fun input hl =>
    mapToGroupElement_badGroup d input hl hbad
  simp only [genLevels]
  rw [genStep_convert_error d ks beta _ _ .UnsupportedGroup hl0 hl1 ha hC,
    except_bind_error, except_bind_error]

theorem evaluate_badGroup (d : DCFScheme) (ks : Bytes → Nat → Nat)
    (key : DCFKey) (x : Int) (n : Nat)
    (hbad : ¬ (isPowerOfTwo d.groupOrder = true ∧ d.groupK ≤ d.lambdaInBits))
    (ha : aesOK d)
    (hcw : key.CWs.length = n) (hn1 : 1 ≤ n) (hn63 : n ≤ 63)
    (hseed : key.Seed.length = d.lambdaInBytes)
    (hx1 : -(2 ^ (n - 1) : Int) ≤ x) (hx2 : x < 2 ^ (n - 1)) :
    Evaluate d ks key x = some (.error .UnsupportedGroup) := by
  unfold Evaluate
  dsimp only
  rw [hcw, if_neg (show ¬ n = 0 by omega)]
  have hT : wrap64 ((2:Int) ^ (n - 1)) = 2 ^ (n - 1) :=
    wrap64_pow_small _ (by omega)
  rw [hT, if_neg (by push_neg; exact ⟨hx2, hx1⟩)]
  congr 1
  obtain ⟨m, hm⟩ : ∃ m, n = m + 1 := ⟨n - 1, by omega⟩
  have hC : ∀ input : Bytes, input.length = d.lambdaInBytes →
      mapToGroupElement d input = .error .UnsupportedGroup := fun input hl =>
    mapToGroupElement_badGroup d input hl hbad
  rcases hcws : key.CWs with _ | ⟨cw, cws⟩
  · rw [hcws] at hcw
    simp at hcw
    exfalso
    omega
  · rw [hm, msbBits_succ, List.zip_cons_cons]
    simp only [evalLevels]
    rw [evalStep_convert_error d ks _ _ _ _ .UnsupportedGroup hseed ha hC,
      except_bind_error, except_bind_error]

theorem mapToGroupElement_unsupported_iff (d : DCFScheme) (input : Bytes)
    (hlen : input.length = d.lambdaInBytes) :
    mapToGroupElement d input = .error .UnsupportedGroup ↔
      ¬ (isPowerOfTwo d.groupOrder = true ∧ d.groupK ≤ d.lambdaInBits) := by
  constructor
  · intro h hgood
    obtain ⟨h1, h2⟩ := hgood
    unfold mapToGroupElement at h
    rw [if_neg (by simp [hlen]), if_neg (by simp [h1]),
      if_neg (show ¬ d.groupK > d.lambdaInBits by omega)] at h
    split at h
    · simp at h
    · cases h
  · intro hbad
    exact mapToGroupElement_badGroup d input hlen hbad

theorem expandDCFNode_cipher_error (d : DCFScheme) (ks : Bytes → Nat → Nat)
    (seed : Bytes) (hl : seed.length = d.lambdaInBytes) (hna : ¬ aesOK d) :
    expandDCFNode d ks seed = .error .CryptoFailure := by
  unfold expandDCFNode
  rw [if_neg (by simp [hl]), if_pos ?_]
  rw [hl]
  exact hna

theorem genStep_cipher_error (d : DCFScheme) (ks : Bytes → Nat → Nat) (beta : Int)
    (st : GenState) (b : Nat)
    (h0 : st.s0.length = d.lambdaInBytes) (hna : ¬ aesOK d) :
    genStep d ks beta st b = .error .CryptoFailure := by
  unfold genStep
  rw [expandDCFNode_cipher_error d ks st.s0 h0 hna, except_bind_error]

theorem evalStep_cipher_error (d : DCFScheme) (ks : Bytes → Nat → Nat)
    (negate : Bool) (st : EvalState) (b : Nat) (cw : DCFCorrectionWord)
    (h0 : st.s.length = d.lambdaInBytes) (hna : ¬ aesOK d) :
    evalStep d ks negate st b cw = .error .CryptoFailure := by
  unfold evalStep
  rw [expandDCFNode_cipher_error d ks st.s h0 hna, except_bind_error]

theorem generateKeys_cipherFailure (d : DCFScheme) (ks : Bytes → Nat → Nat)
    (s0 s1 : Bytes) (n alpha beta : Int) (hna : ¬ aesOK d)
    (hl0 : s0.length = d.lambdaInBytes) (hl1 : s1.length = d.lambdaInBytes)
    (hn1 : 1 ≤ n) (hn63 : n ≤ 63)
    (hα1 : -(2 ^ (n.toNat - 1) : Int) ≤ alpha) (hα2 : alpha < 2 ^ (n.toNat - 1)) :
    GenerateKeys d ks s0 s1 n alpha beta = some (.error .CryptoFailure) := by
  unfold GenerateKeys
  rw [if_neg (show ¬ n - 1 < 0 by omega)]
  have hexp : (n - 1).toNat = n.toNat - 1 := by omega
  rw [hexp]
  dsimp only
  have hT : wrap64 ((2:Int) ^ (n.toNat - 1)) = 2 ^ (n.toNat - 1) :=
    wrap64_pow_small _ (by omega)
  rw [hT, if_neg (by push_neg; exact ⟨hα2, hα1⟩)]
  congr 1
  obtain ⟨m, hm⟩ : ∃ m, n.toNat = m + 1 := ⟨n.toNat - 1, by omega⟩
  rw [hm, msbBits_succ]
  simp only [genLevels]
  rw [genStep_cipher_error d ks beta _ _ hl0 hna,
    except_bind_error, except_bind_error]

theorem evaluate_cipherFailure (d : DCFScheme) (ks : Bytes → Nat → Nat)
    (key : DCFKey) (x : Int) (n : Nat) (hna : ¬ aesOK d)
    (hcw : key.CWs.length = n) (hn1 : 1 ≤ n) (hn63 : n ≤ 63)
    (hseed : key.Seed.length = d.lambdaInBytes)
    (hx1 : -(2 ^ (n - 1) : Int) ≤ x) (hx2 : x < 2 ^ (n - 1)) :
    Evaluate d ks key x = some (.error .CryptoFailure) := by
  unfold Evaluate
  dsimp only
  rw [hcw, if_neg (show ¬ n = 0 by omega)]
  have hT : wrap64 ((2:Int) ^ (n - 1)) = 2 ^ (n - 1) :=
    wrap64_pow_small _ (by omega)
  rw [hT, if_neg (by push_neg; exact ⟨hx2, hx1⟩)]
  congr 1
  obtain ⟨m, hm⟩ : ∃ m, n = m + 1 := ⟨n - 1, by omega⟩
  rcases hcws : key.CWs with _ | ⟨cw, cws⟩
  · rw [hcws] at hcw
    simp at hcw
    exfalso
    omega
  · rw [hm, msbBits_succ, List.zip_cons_cons]
    simp only [evalLevels]
    rw [evalStep_cipher_error d ks _ _ _ _ hseed hna,
      except_bind_error, except_bind_error]

/-- C5 (corrected): `NewDCFScheme` validates nothing and always
succeeds, merely storing its two parameters, and on a block of the
correct length `mapToGroupElement` fails with `UnsupportedGroup`
exactly when the group is unsupported — the order not a positive power
of two, or its bit length minus one above λ.  The error the deferred
validation produces at the first `GenerateKeys`/`Evaluate` call,
however, depends on the seed width: for λ/8 ∈ {16, 24, 32} an
unsupported group makes those calls fail with `UnsupportedGroup`, but
for every other λ the PRG's AES cipher creation fails first and the
calls fail with `CryptoFailure` whatever the group — not with
`UnsupportedGroup` as the original claim stated for every λ. -/
theorem newDCFScheme_deferred_validation :
    (∀ (lam : Nat) (N : Int), NewDCFScheme lam N = ⟨lam, N⟩) ∧
    (∀ d : DCFScheme,
      ¬ (isPowerOfTwo d.groupOrder = true ∧ d.groupK ≤ d.lambdaInBits) →
      aesOK d →
      (∀ ks s0 s1 n alpha beta, s0.length = d.lambdaInBytes →
        s1.length = d.lambdaInBytes → 1 ≤ n → n ≤ 63 →
        -(2 ^ (n.toNat - 1) : Int) ≤ alpha → alpha < 2 ^ (n.toNat - 1) →
        GenerateKeys d ks s0 s1 n alpha beta = some (.error .UnsupportedGroup)) ∧
      (∀ ks key x n, key.CWs.length = n → 1 ≤ n → n ≤ 63 →
        key.Seed.length = d.lambdaInBytes →
        -(2 ^ (n - 1) : Int) ≤ x → x < 2 ^ (n - 1) →
        Evaluate d ks key x = some (.error .UnsupportedGroup))) ∧
    (∀ d : DCFScheme, ¬ aesOK d →
      (∀ ks s0 s1 n alpha beta, s0.length = d.lambdaInBytes →
        s1.length = d.lambdaInBytes → 1 ≤ n → n ≤ 63 →
        -(2 ^ (n.toNat - 1) : Int) ≤ alpha → alpha < 2 ^ (n.toNat - 1) →
        GenerateKeys d ks s0 s1 n alpha beta = some (.error .CryptoFailure)) ∧
      (∀ ks key x n, key.CWs.length = n → 1 ≤ n → n ≤ 63 →
        key.Seed.length = d.lambdaInBytes →
        -(2 ^ (n - 1) : Int) ≤ x → x < 2 ^ (n - 1) →
        Evaluate d ks key x = some (.error .CryptoFailure))) ∧
    (∀ (d : DCFScheme) (input : Bytes), input.length = d.lambdaInBytes →
      (mapToGroupElement d input = .error .UnsupportedGroup ↔
        ¬ (isPowerOfTwo d.groupOrder = true ∧ d.groupK ≤ d.lambdaInBits))) := by
  refine ⟨fun lam N => rfl, fun d hbad ha => ⟨?_, ?_⟩, fun d hna => ⟨?_, ?_⟩,
    fun d input hlen => mapToGroupElement_unsupported_iff d input hlen⟩
  · intro ks s0 s1 n alpha beta hl0 hl1 hn1 hn63 hα1 hα2
    exact generateKeys_badGroup d ks s0 s1 n alpha beta hbad ha hl0 hl1 hn1 hn63 hα1 hα2
  · intro ks key x n hcw hn1 hn63 hseed hx1 hx2
    exact evaluate_badGroup d ks key x n hbad ha hcw hn1 hn63 hseed hx1 hx2
  · intro ks s0 s1 n alpha beta hl0 hl1 hn1 hn63 hα1 hα2
    exact generateKeys_cipherFailure d ks s0 s1 n alpha beta hna hl0 hl1 hn1 hn63 hα1 hα2
  · intro ks key x n hcw hn1 hn63 hseed hx1 hx2
    exact evaluate_cipherFailure d ks key x n hna hcw hn1 hn63 hseed hx1 hx2

/-- Witness for C5's corrected statement: with λ = 128 (16-byte AES
keys) and order 3 the first calls fail with `UnsupportedGroup`; with
λ = 16 (2-byte seeds, no valid AES key size) they fail with
`CryptoFailure` instead. -/
theorem newDCFScheme_deferred_validation_witness :
    NewDCFScheme 128 3 = ⟨128, 3⟩ ∧
    GenerateKeys (NewDCFScheme 128 3) (fun _ _ => 0)
      (List.replicate 16 0) (List.replicate 16 0) 1 0 5 =
      some (.error .UnsupportedGroup) ∧
    Evaluate (NewDCFScheme 128 3) (fun _ _ => 0)
      ⟨0, List.replicate 16 0, [⟨List.replicate 16 0, 0, (0, 0)⟩], 0⟩ 0 =
      some (.error .UnsupportedGroup) ∧
    GenerateKeys (NewDCFScheme 16 3) (fun _ _ => 0) [0, 0] [0, 0] 1 0 5 =
      some (.error .CryptoFailure) ∧
    Evaluate (NewDCFScheme 16 3) (fun _ _ => 0)
      ⟨0, [0, 0], [⟨[0, 0], 0, (0, 0)⟩], 0⟩ 0 =
      some (.error .CryptoFailure) ∧
    (mapToGroupElement (NewDCFScheme 128 3) (List.replicate 16 0) =
        .error .UnsupportedGroup ↔
      ¬ (isPowerOfTwo (NewDCFScheme 128 3).groupOrder = true ∧
        (NewDCFScheme 128 3).groupK ≤ (NewDCFScheme 128 3).lambdaInBits)) := by
  obtain ⟨h1, h2, h3, h4⟩ := newDCFScheme_deferred_validation
  have hbad : ¬ (isPowerOfTwo (NewDCFScheme 128 3).groupOrder = true ∧
      (NewDCFScheme 128 3).groupK ≤ (NewDCFScheme 128 3).lambdaInBits) := by decide
  obtain ⟨hg, he⟩ := h2 (NewDCFScheme 128 3) hbad (by decide)
  obtain ⟨hgc, hec⟩ := h3 (NewDCFScheme 16 3) (by decide)
  refine ⟨h1 128 3, ?_, ?_, ?_, ?_, h4 _ _ (by decide)⟩
  · exact hg (fun _ _ => 0) (List.replicate 16 0) (List.replicate 16 0) 1 0 5
      (by decide) (by decide) (by decide) (by decide) (by decide) (by decide)
  · exact he (fun _ _ => 0)
      ⟨0, List.replicate 16 0, [⟨List.replicate 16 0, 0, (0, 0)⟩], 0⟩ 0 1
      (by decide) (by decide) (by decide) (by decide) (by decide) (by decide)
  · exact hgc (fun _ _ => 0) [0, 0] [0, 0] 1 0 5
      (by decide) (by decide) (by decide) (by decide) (by decide) (by decide)
  · exact hec (fun _ _ => 0) ⟨0, [0, 0], [⟨[0, 0], 0, (0, 0)⟩], 0⟩ 0 1
      (by decide) (by decide) (by decide) (by decide) (by decide) (by decide)

/-- Counterexample to C5 as stated: with λ = 16 bits the seeds are two
bytes, no valid AES key size, so on a scheme whose group order 3 is not
a power of two the first `GenerateKeys` and `Evaluate` calls fail with
the cipher-creation error, not with `UnsupportedGroup`. -/
theorem cipher_error_preempts_group_check :
    isPowerOfTwo (NewDCFScheme 16 3).groupOrder = false ∧
    GenerateKeys (NewDCFScheme 16 3) (fun _ _ => 0) [0, 0] [0, 0] 1 0 5 =
      some (.error .CryptoFailure) ∧
    Evaluate (NewDCFScheme 16 3) (fun _ _ => 0)
      ⟨0, [0, 0], [⟨[0, 0], 0, (0, 0)⟩], 0⟩ 0 =
      some (.error .CryptoFailure) ∧
    GoError.CryptoFailure ≠ GoError.UnsupportedGroup :=
  ⟨by decide, by decide, by decide, by decide⟩

theorem except_bind_error_inv {ε α β : Type} (m : Except ε α) (f : α → Except ε β)
    (e : ε) (h : m >>= f = .error e) :
    m = .error e ∨ ∃ a, m = .ok a ∧ f a = .error e := by
  cases m with
  | error e' =>
    rw [except_bind_error] at h
    injection h with h'
    subst h'
    exact Or.inl rfl
  | ok a =>
    rw [except_bind_ok] at h
    exact Or.inr ⟨a, rfl, h⟩

theorem expandDCFNode_error_kind (d : DCFScheme) (ks : Bytes → Nat → Nat)
    (s : Bytes) (e : GoError) (h : expandDCFNode d ks s = .error e) :
    e = .InvalidLength ∨ e = .CryptoFailure := by
  unfold expandDCFNode at h
  split at h
  · injection h with h'
    exact Or.inl h'.symm
  · split at h
    · injection h with h'
      exact Or.inr h'.symm
    · cases h

/-- A failing generator level reports only a length, group-parameter or
cipher error, never a range error. -/
theorem genStep_error_kinds (d : DCFScheme) (ks : Bytes → Nat → Nat) (beta : Int)
    (st : GenState) (b : Nat) (e : GoError) (h : genStep d ks beta st b = .error e) :
    e = .InvalidLength ∨ e = .UnsupportedGroup ∨ e = .InternalError ∨
      e = .CryptoFailure := by
  unfold genStep at h
  dsimp only at h
  rcases except_bind_error_inv _ _ _ h with h0 | ⟨node0, -, h⟩
  · rcases expandDCFNode_error_kind d ks st.s0 e h0 with rfl | rfl <;> decide
  rcases except_bind_error_inv _ _ _ h with h1 | ⟨node1, -, h⟩
  · rcases expandDCFNode_error_kind d ks st.s1 e h1 with rfl | rfl <;> decide
  rcases except_bind_error_inv _ _ _ h with h2 | ⟨v0L, -, h⟩
  · rcases mapToGroupElement_error_kinds d _ e h2 with rfl | rfl | rfl <;> decide
  rcases except_bind_error_inv _ _ _ h with h3 | ⟨v1L, -, h⟩
  · rcases mapToGroupElement_error_kinds d _ e h3 with rfl | rfl | rfl <;> decide
  rcases except_bind_error_inv _ _ _ h with h4 | ⟨v0K, -, h⟩
  · rcases mapToGroupElement_error_kinds d _ e h4 with rfl | rfl | rfl <;> decide
  rcases except_bind_error_inv _ _ _ h with h5 | ⟨v1K, -, h⟩
  · rcases mapToGroupElement_error_kinds d _ e h5 with rfl | rfl | rfl <;> decide
  cases h

theorem genLevels_error_kinds (d : DCFScheme) (ks : Bytes → Nat → Nat) (beta : Int)
    (bits : List Nat) (st : GenState) (e : GoError)
    (h : genLevels d ks beta bits st = .error e) :
    e = .InvalidLength ∨ e = .UnsupportedGroup ∨ e = .InternalError ∨
      e = .CryptoFailure := by
  induction bits generalizing st with
  | nil => cases h
  | cons b bs ih =>
    rw [genLevels] at h
    rcases except_bind_error_inv _ _ _ h with h0 | ⟨p, -, h⟩
    · exact genStep_error_kinds d ks beta st b e h0
    rcases except_bind_error_inv _ _ _ h with h1 | ⟨q, -, h⟩
    · exact ih p.1 h1
    cases h

theorem evalStep_error_kinds (d : DCFScheme) (ks : Bytes → Nat → Nat)
    (negate : Bool) (st : EvalState) (b : Nat) (cw : DCFCorrectionWord) (e : GoError)
    (h : evalStep d ks negate st b cw = .error e) :
    e = .InvalidLength ∨ e = .UnsupportedGroup ∨ e = .InternalError ∨
      e = .CryptoFailure := by
  unfold evalStep at h
  dsimp only at h
  rcases except_bind_error_inv _ _ _ h with h0 | ⟨node, -, h⟩
  · rcases expandDCFNode_error_kind d ks st.s e h0 with rfl | rfl <;> decide
  rcases except_bind_error_inv _ _ _ h with h1 | ⟨vC, -, h⟩
  · rcases mapToGroupElement_error_kinds d _ e h1 with rfl | rfl | rfl <;> decide
  split at h <;> cases h

theorem evalLevels_error_kinds (d : DCFScheme) (ks : Bytes → Nat → Nat)
    (negate : Bool) (l : List (Nat × DCFCorrectionWord)) (st : EvalState) (e : GoError)
    (h : evalLevels d ks negate l st = .error e) :
    e = .InvalidLength ∨ e = .UnsupportedGroup ∨ e = .InternalError ∨
      e = .CryptoFailure := by
  induction l generalizing st with
  | nil => cases h
  | cons p rest ih =>
    rcases p with ⟨b, cw⟩
    rw [evalLevels] at h
    rcases except_bind_error_inv _ _ _ h with h0 | ⟨st', -, h⟩
    · exact evalStep_error_kinds d ks negate st b cw e h0
    · exact ih st' h

/-- C6 (corrected): restricted to 1 ≤ n ≤ 63 — for n ≥ 64 the 64-bit
shift computing the threshold wraps around and the range check rejects
every α (see the counterexample) — `GenerateKeys` returns
`AlphaOutOfRange` exactly when α lies outside [−2^(n−1), 2^(n−1) − 1],
and `Evaluate` returns `XOutOfRange` exactly when x lies outside the
same interval for n the length of the key's correction-word list; an
error result carries no keys and no value by construction of the
result type. -/
theorem range_error_iff (d : DCFScheme) (ks : Bytes → Nat → Nat)
    (s0 s1 : Bytes) (n alpha beta x : Int) (key : DCFKey) (m : Nat)
    (hn1 : 1 ≤ n) (hn63 : n ≤ 63) (hcw : key.CWs.length = m)
    (hm1 : 1 ≤ m) (hm63 : m ≤ 63) :
    (GenerateKeys d ks s0 s1 n alpha beta = some (.error .AlphaOutOfRange) ↔
      (alpha < -(2 ^ (n.toNat - 1) : Int) ∨ 2 ^ (n.toNat - 1) ≤ alpha)) ∧
    (Evaluate d ks key x = some (.error .XOutOfRange) ↔
      (x < -(2 ^ (m - 1) : Int) ∨ 2 ^ (m - 1) ≤ x)) := by
  have hexp : (n - 1).toNat = n.toNat - 1 := by omega
  have hTn : wrap64 ((2:Int) ^ (n.toNat - 1)) = 2 ^ (n.toNat - 1) :=
    wrap64_pow_small _ (by omega)
  have hTm : wrap64 ((2:Int) ^ (m - 1)) = 2 ^ (m - 1) :=
    wrap64_pow_small _ (by omega)
  constructor
  · unfold GenerateKeys
    rw [if_neg (show ¬ n - 1 < 0 by omega), hexp]
    dsimp only
    rw [hTn]
    constructor
    · intro h
      by_contra hc
      push_neg at hc
      rw [if_neg (by push_neg; exact ⟨hc.2, hc.1⟩)] at h
      rw [Option.some.injEq] at h
      rcases except_bind_error_inv _ _ _ h with hL | ⟨r, -, h⟩
      · rcases genLevels_error_kinds d ks beta _ _ _ hL with h' | h' | h' | h' <;>
          exact GoError.noConfusion h'
      rcases except_bind_error_inv _ _ _ h with hC | ⟨s0n, -, h⟩
      · rcases mapToGroupElement_error_kinds d _ _ hC with h' | h' | h' <;>
          exact GoError.noConfusion h'
      rcases except_bind_error_inv _ _ _ h with hC | ⟨s1n, -, h⟩
      · rcases mapToGroupElement_error_kinds d _ _ hC with h' | h' | h' <;>
          exact GoError.noConfusion h'
      cases h
    · intro h
      have hcond : alpha ≥ 2 ^ (n.toNat - 1) ∨ alpha < -(2 ^ (n.toNat - 1) : Int) := by
        rcases h with h | h
        · exact Or.inr h
        · exact Or.inl h
      rw [if_pos hcond]
  · unfold Evaluate
    dsimp only
    rw [hcw, if_neg (show ¬ m = 0 by omega), hTm]
    constructor
    · intro h
      by_contra hc
      push_neg at hc
      rw [if_neg (by push_neg; exact ⟨hc.2, hc.1⟩)] at h
      rw [Option.some.injEq] at h
      rcases except_bind_error_inv _ _ _ h with hL | ⟨stF, -, h⟩
      · rcases evalLevels_error_kinds d ks _ _ _ _ hL with h' | h' | h' | h' <;>
          exact GoError.noConfusion h'
      rcases except_bind_error_inv _ _ _ h with hC | ⟨c, -, h⟩
      · rcases mapToGroupElement_error_kinds d _ _ hC with h' | h' | h' <;>
          exact GoError.noConfusion h'
      cases h
    · intro h
      have hcond : x ≥ 2 ^ (m - 1) ∨ x < -(2 ^ (m - 1) : Int) := by
        rcases h with h | h
        · exact Or.inr h
        · exact Or.inl h
      rw [if_pos hcond]

/-- Witness for C6's corrected statement: n = 2, α = 5 is out of range
and is rejected, while the in-range x = 0 evaluates without a range
error on a two-level key. -/
theorem range_error_iff_witness :
    ((1:Int) ≤ 2 ∧ (2:Int) ≤ 63 ∧
      ([⟨[0], 0, (0, 1)⟩, ⟨[0], 0, (0, 1)⟩] : List DCFCorrectionWord).length = 2 ∧
      1 ≤ 2 ∧ 2 ≤ 63) ∧
    ((GenerateKeys (NewDCFScheme 8 8) (fun _ _ => 0) [0] [0] 2 5 1 =
        some (.error .AlphaOutOfRange) ↔
      ((5:Int) < -(2 ^ ((2:Int).toNat - 1)) ∨ ((2:Int) ^ ((2:Int).toNat - 1)) ≤ 5)) ∧
    (Evaluate (NewDCFScheme 8 8) (fun _ _ => 0)
        ⟨0, [0], [⟨[0], 0, (0, 1)⟩, ⟨[0], 0, (0, 1)⟩], 1⟩ 0 =
        some (.error .XOutOfRange) ↔
      ((0:Int) < -(2 ^ (2 - 1) : Int) ∨ (2 ^ (2 - 1) : Int) ≤ 0))) :=
  ⟨⟨by decide, by decide, by decide, by decide, by decide⟩,
    range_error_iff (NewDCFScheme 8 8) (fun _ _ => 0) [0] [0] 2 5 1 0
      ⟨0, [0], [⟨[0], 0, (0, 1)⟩, ⟨[0], 0, (0, 1)⟩], 1⟩ 2
      (by decide) (by decide) (by decide) (by decide) (by decide)⟩

/-- Counterexample to C6 as stated for n ≥ 64: at n = 64 the threshold
`1 << 63` wraps to −2^63, so even the in-range α = 0 (and x = 0 for a
64-level key) is rejected as out of range. -/
theorem range_check_wraps_at_64 :
    GenerateKeys (NewDCFScheme 8 8) (fun _ _ => 0) [0] [0] 64 0 1 =
      some (.error .AlphaOutOfRange) ∧
    (-(2 ^ (64 - 1) : Int) ≤ 0 ∧ (0:Int) < 2 ^ (64 - 1)) ∧
    Evaluate (NewDCFScheme 8 8) (fun _ _ => 0)
      ⟨0, [0], List.replicate 64 ⟨[0], 0, (0, 1)⟩, 0⟩ 0 =
      some (.error .XOutOfRange) :=
  ⟨by decide, ⟨by decide, by decide⟩, by decide⟩

/-- C7: a successful `GenerateKeys` call returns a key for party 0 and a
key for party 1 whose correction-word lists have length n and are equal
by value, and whose final values are equal; the keys differ only in the
party and the initial seed. -/
theorem generateKeys_key_pair (d : DCFScheme) (ks : Bytes → Nat → Nat)
    (s0 s1 : Bytes) (n alpha beta : Int) (k0 k1 : DCFKey)
    (hgen : GenerateKeys d ks s0 s1 n alpha beta = some (Except.ok (k0, k1))) :
    k0.Party = 0 ∧ k1.Party = 1 ∧
    k0.CWs.length = n.toNat ∧ k1.CWs = k0.CWs ∧
    k0.FinalValue = k1.FinalValue ∧ k0.Seed = s0 ∧ k1.Seed = s1 := by
  obtain ⟨hn, h63, hl0, hl1, hg, ha, hα1, hα2, hk0, hk1⟩ :=
    generateKeys_ok_inv d ks s0 s1 n alpha beta k0 k1 hgen
  subst hk0
  subst hk1
  refine ⟨rfl, rfl, ?_, rfl, rfl, rfl, rfl⟩
  rw [genLevelsCore_cws_length]
  exact msbBits_length _ _

/-- Witness for C7: the concrete two-level key pair of the C1 scenario
has parties 0 and 1, two shared correction words and a shared final
value. -/
theorem generateKeys_key_pair_witness :
    GenerateKeys (NewDCFScheme 128 8) (fun _ _ => 0)
      (List.replicate 16 0) (List.replicate 16 0) 2 1 1 =
      some (Except.ok
        (⟨0, List.replicate 16 0, [⟨List.replicate 16 0, -1, (0, 1)⟩, ⟨List.replicate 16 0, 0, (0, 1)⟩], 1⟩,
          ⟨1, List.replicate 16 0, [⟨List.replicate 16 0, -1, (0, 1)⟩, ⟨List.replicate 16 0, 0, (0, 1)⟩], 1⟩)) ∧
    ((⟨0, List.replicate 16 0, [⟨List.replicate 16 0, -1, (0, 1)⟩, ⟨List.replicate 16 0, 0, (0, 1)⟩], 1⟩ : DCFKey).Party = 0 ∧
    (⟨1, List.replicate 16 0, [⟨List.replicate 16 0, -1, (0, 1)⟩, ⟨List.replicate 16 0, 0, (0, 1)⟩], 1⟩ : DCFKey).Party = 1 ∧
    (⟨0, List.replicate 16 0, [⟨List.replicate 16 0, -1, (0, 1)⟩, ⟨List.replicate 16 0, 0, (0, 1)⟩], 1⟩ : DCFKey).CWs.length =
      (2:Int).toNat ∧
    (⟨1, List.replicate 16 0, [⟨List.replicate 16 0, -1, (0, 1)⟩, ⟨List.replicate 16 0, 0, (0, 1)⟩], 1⟩ : DCFKey).CWs =
      (⟨0, List.replicate 16 0, [⟨List.replicate 16 0, -1, (0, 1)⟩, ⟨List.replicate 16 0, 0, (0, 1)⟩], 1⟩ : DCFKey).CWs ∧
    (⟨0, List.replicate 16 0, [⟨List.replicate 16 0, -1, (0, 1)⟩, ⟨List.replicate 16 0, 0, (0, 1)⟩], 1⟩ : DCFKey).FinalValue =
      (⟨1, List.replicate 16 0, [⟨List.replicate 16 0, -1, (0, 1)⟩, ⟨List.replicate 16 0, 0, (0, 1)⟩], 1⟩ : DCFKey).FinalValue ∧
    (⟨0, List.replicate 16 0, [⟨List.replicate 16 0, -1, (0, 1)⟩, ⟨List.replicate 16 0, 0, (0, 1)⟩], 1⟩ : DCFKey).Seed = List.replicate 16 0 ∧
    (⟨1, List.replicate 16 0, [⟨List.replicate 16 0, -1, (0, 1)⟩, ⟨List.replicate 16 0, 0, (0, 1)⟩], 1⟩ : DCFKey).Seed = List.replicate 16 0) :=
  ⟨by decide,
    generateKeys_key_pair (NewDCFScheme 128 8) (fun _ _ => 0)
      (List.replicate 16 0) (List.replicate 16 0) 2 1 1
      ⟨0, List.replicate 16 0, [⟨List.replicate 16 0, -1, (0, 1)⟩, ⟨List.replicate 16 0, 0, (0, 1)⟩], 1⟩
      ⟨1, List.replicate 16 0, [⟨List.replicate 16 0, -1, (0, 1)⟩, ⟨List.replicate 16 0, 0, (0, 1)⟩], 1⟩ (by decide)⟩

/-- C8: `Evaluate`, which reduces its accumulator modulo the group order
only after right-branch contributions and after the final step, returns
the same result as the variant `EvaluateEveryStep` that reduces after
every level's contribution, for every key and every input. -/
theorem evaluate_eq_evaluateEveryStep (d : DCFScheme) (ks : Bytes → Nat → Nat)
    (key : DCFKey) (x : Int) :
    Evaluate d ks key x = EvaluateEveryStep d ks key x := by
  unfold Evaluate EvaluateEveryStep
  by_cases hn : key.CWs.length = 0
  · simp [hn]
  · simp only [hn, if_false]
    by_cases hx : x ≥ wrap64 (2 ^ (key.CWs.length - 1)) ∨
        x < -wrap64 (2 ^ (key.CWs.length - 1))
    · simp only [hx, if_true]
    · simp only [hx, if_false]
      congr 1
      rcases evalLevels_vs_every d ks (Int.tmod key.Party 2 == 1)
          ((msbBits key.CWs.length ((x + wrap64 (2 ^ (key.CWs.length - 1))).toNat)).zip key.CWs)
          key.Seed ((key.Party % 256).toNat) 0 0 rfl with
        ⟨e, hG, hE⟩ | ⟨stG, stE, hG, hE, hss, hts, hvs⟩
      · rw [hG, hE]
      · rw [hG, hE, except_bind_ok, except_bind_ok]
        rcases stG with ⟨sG, tG, vG⟩
        rcases stE with ⟨sE, tE, vE⟩
        simp only at hss hts hvs
        cases hss
        cases hts
        cases hc : mapToGroupElement d sG with
        | error e => rfl
        | ok c =>
          simp only [except_bind_ok]
          congr 1
          rw [Int.add_emod vG, hvs, ← Int.add_emod]

end Fss2020
